import Mathlib

/-!
# mpi-ddos-detection: a shallow embedding of the partition / clean / detect pipeline

The development embeds the four C programs of the repository
(`preprocessing.c`, `detection.c`, `blocking.c`, `evaluation.c`) as Lean
functions and states the properties of the specification over them.

Conventions of the embedding

* A C string, a text line and the contents of a file are `List Char`; the
  text is assumed to hold no NUL character.
* A `FILE*` opened for reading is the list of characters not yet read;
  `fgets` returns the line read together with the rest of the stream.
* `double` values are the type `Dbl`: NaN, the two infinities, and the finite
  values, carried as rationals (every finite double is a rational).
  `clip_value` only compares and returns constants, and the throughput is
  looked at for a zero divisor, where `Dbl` is exact.  The detector adds,
  subtracts, multiplies and divides doubles: it is embedded for an arbitrary
  arithmetic (`DoubleOps`); the arithmetic of C, binary64 with rounding to
  nearest, is `ieeeOps`, and the concrete runs are evaluated in it.
* `int` and `long` counters (`line_idx`, `idx`, `local_flows`, `processed`)
  are unbounded integers: the embedding describes runs in which they do not
  overflow.
-/

namespace MpiDdos

/-! ## Doubles -/

/-- A `double`: not-a-number, plus and minus infinity, or a finite value. -/
inductive Dbl where
  | nan : Dbl
  | pinf : Dbl
  | ninf : Dbl
  | fin (q : Rat) : Dbl
  deriving DecidableEq

namespace Dbl

/-- The C macro `isnan`. -/
def isnan : Dbl → Bool
  | nan => true
  | _ => false

/-- The C macro `isinf`. -/
def isinf : Dbl → Bool
  | pinf => true
  | ninf => true
  | _ => false

/-- Whether the value is finite (neither NaN nor an infinity). -/
def isFinite : Dbl → Bool
  | fin _ => true
  | _ => false

/-- Unary minus on doubles. -/
def neg : Dbl → Dbl
  | nan => nan
  | pinf => ninf
  | ninf => pinf
  | fin q => fin (-q)

/-- The C comparison `x > y` on doubles (false whenever an operand is NaN). -/
def gt : Dbl → Dbl → Bool
  | nan, _ => false
  | _, nan => false
  | pinf, pinf => false
  | pinf, _ => true
  | ninf, _ => false
  | fin _, pinf => false
  | fin _, ninf => true
  | fin a, fin b => decide (b < a)

/-- The C comparison `x < y` on doubles. -/
def lt (x y : Dbl) : Bool := gt y x

/-- Conversion of an integer to `double` (exact for the integers used here). -/
def ofInt (n : Int) : Dbl := fin n

/-- IEEE-754 division, exact on finite operands with a non-zero divisor:
a finite non-zero value divided by zero is an infinity, zero by zero is NaN. -/
def div : Dbl → Dbl → Dbl
  | nan, _ => nan
  | _, nan => nan
  | pinf, pinf => nan
  | pinf, ninf => nan
  | ninf, pinf => nan
  | ninf, ninf => nan
  | pinf, fin b => if 0 ≤ b then pinf else ninf
  | ninf, fin b => if 0 ≤ b then ninf else pinf
  | fin _, pinf => fin 0
  | fin _, ninf => fin 0
  | fin a, fin b =>
    if b = 0 then (if a = 0 then nan else if 0 < a then pinf else ninf)
    else fin (a / b)

end Dbl

/-- The arithmetic of `double` used by the detector: the constants `0` and
`0.1`, conversion from `int`, the four operations, `fabs` and `>`.  The
detector is embedded for an arbitrary such arithmetic. -/
structure DoubleOps (D : Type) where
  zero : D
  tenth : D
  ofInt : Int → D
  add : D → D → D
  sub : D → D → D
  mul : D → D → D
  div : D → D → D
  fabs : D → D
  gt : D → D → Bool

namespace Dbl

/-- The number of times `n` can be halved before it is below 2, on at most
`fuel` steps. -/
def log2Fuel : Nat → Nat → Nat
  | 0, _ => 0
  | fuel + 1, n => if n < 2 then 0 else log2Fuel fuel (n / 2) + 1

/-- The binary logarithm of a natural number, rounded down (`0` for `0`);
`n` halvings are more than enough. -/
def log2 (n : Nat) : Nat := log2Fuel n n

/-- The exponent of a positive rational `n / d`: the integer `e` with
`2 ^ e ≤ n / d < 2 ^ (e + 1)`. -/
def ilog2 (n d : Nat) : Int :=
  let e0 : Int := (log2 n : Int) - (log2 d : Int)
  if 0 ≤ e0 then (if d * 2 ^ e0.toNat ≤ n then e0 else e0 - 1)
  else (if d ≤ n * 2 ^ (-e0).toNat then e0 else e0 - 1)

/-- Rounding of a real result to a binary64 `double`, to nearest with ties to
even: the magnitude is scaled so that the unit in the last place is 1 (53
bits of precision, exponent at least `-1022`, which gives the subnormal
numbers), rounded to an integer `m`, and scaled back; a result of magnitude
`2 ^ 1024` or more, which takes a scale `2 ^ (-s)` above 1, is an infinity.  The sign of a zero is not represented. -/
def roundRat (q : Rat) : Dbl :=
  if q = 0 then fin 0
  else
    let n := q.num.natAbs
    let d := q.den
    let e := max (ilog2 n d) (-1022)
    let s : Int := 52 - e
    let num := if 0 ≤ s then n * 2 ^ s.toNat else n
    let den := if 0 ≤ s then d else d * 2 ^ (-s).toNat
    let m0 := num / den
    let rem := num % den
    let m := if den < 2 * rem ∨ (2 * rem = den ∧ m0 % 2 = 1) then m0 + 1 else m0
    let mag : Rat := if 0 ≤ s then mkRat m (2 ^ s.toNat) else ((m * 2 ^ (-s).toNat : Nat) : Rat)
    if s < 0 ∧ 2 ^ 1024 ≤ m * 2 ^ (-s).toNat then (if q < 0 then ninf else pinf)
    else fin (if q < 0 then -mag else mag)

/-- IEEE-754 addition of doubles. -/
def add : Dbl → Dbl → Dbl
  | nan, _ => nan
  | _, nan => nan
  | pinf, ninf => nan
  | ninf, pinf => nan
  | pinf, _ => pinf
  | ninf, _ => ninf
  | fin _, pinf => pinf
  | fin _, ninf => ninf
  | fin a, fin b => roundRat (a + b)

/-- IEEE-754 subtraction of doubles. -/
def sub (x y : Dbl) : Dbl := add x (neg y)

/-- IEEE-754 multiplication of doubles. -/
def mul : Dbl → Dbl → Dbl
  | nan, _ => nan
  | _, nan => nan
  | pinf, pinf => pinf
  | pinf, ninf => ninf
  | ninf, pinf => ninf
  | ninf, ninf => pinf
  | pinf, fin b => if b = 0 then nan else if 0 < b then pinf else ninf
  | ninf, fin b => if b = 0 then nan else if 0 < b then ninf else pinf
  | fin a, pinf => if a = 0 then nan else if 0 < a then pinf else ninf
  | fin a, ninf => if a = 0 then nan else if 0 < a then ninf else pinf
  | fin a, fin b => roundRat (a * b)

/-- IEEE-754 division of doubles: the quotient of `div`, rounded. -/
def divR (x y : Dbl) : Dbl :=
  match div x y with
  | fin q => roundRat q
  | r => r

/-- The C function `fabs`. -/
def fabs : Dbl → Dbl
  | nan => nan
  | pinf => pinf
  | ninf => pinf
  | fin q => fin (if q < 0 then -q else q)

end Dbl

/-- The arithmetic of C on binary64 doubles, rounding to nearest: `0.1` is the
double nearest to one tenth, and an `int` converts without error.  The sign
of a zero is not represented; it only shows in a division by a zero, and the
detector divides by `idx ≥ 1`. -/
def ieeeOps : DoubleOps Dbl where
  zero := Dbl.fin 0
  tenth := Dbl.roundRat (1 / 10)
  ofInt := fun n => Dbl.roundRat (n : Rat)
  add := Dbl.add
  sub := Dbl.sub
  mul := Dbl.mul
  div := Dbl.divR
  fabs := Dbl.fabs
  gt := Dbl.gt

/-! ## Text streams and the C library -/

/-- Reads at most `k` characters, stopping after a newline: the line and the
rest of the stream. -/
def fgetsAux : Nat → List Char → List Char × List Char
  | _, [] => ([], [])
  | k, c :: cs =>
    if k = 0 then ([], c :: cs)
    else if c = '\n' then ([c], cs)
    else ((c :: (fgetsAux (k - 1) cs).1), (fgetsAux (k - 1) cs).2)

/-- The call `fgets(buf, n, fp)`: `none` (NULL) at end of file, otherwise the
line stored in `buf` (at most `n - 1` characters, newline included) and the
stream after it. -/
def fgets (n : Nat) (fp : List Char) : Option (List Char × List Char) :=
  if fp = [] then none else some (fgetsAux (n - 1) fp)

/-- The successive results of `fgets(buf, n, fp)`, at most `fuel` of them,
until it returns NULL. -/
def readLinesFuel (n : Nat) : Nat → List Char → List (List Char)
  | 0, _ => []
  | fuel + 1, fp =>
    match fgets n fp with
    | none => []
    | some (line, rest) => line :: readLinesFuel n fuel rest

/-- All the lines `while (fgets(buf, n, fp))` sees on a stream: every call
consumes a character, so as many calls as the stream has characters reach the
end of file. -/
def readLines (n : Nat) (fp : List Char) : List (List Char) :=
  readLinesFuel n fp.length fp

/-- The call `strtok(s, delim)` with a one-character delimiter, or
`strtok(NULL, delim)` when `s` is the position saved by the previous call: the
token (`none` for NULL) and the saved position. -/
def strtok (delim : Char) (s : List Char) : Option (List Char) × List Char :=
  let s1 := s.dropWhile (fun c => c == delim)
  if s1 = [] then (none, [])
  else (some (s1.takeWhile (fun c => c != delim)), (s1.dropWhile (fun c => c != delim)).drop 1)

/-- The C function `isspace` in the C locale. -/
def isspace (c : Char) : Bool :=
  c == ' ' || c == '\t' || c == '\n' || c == '\r' || c.toNat == 11 || c.toNat == 12

/-- The C function `isdigit`. -/
def isdigit (c : Char) : Bool := decide ('0' ≤ c) && decide (c ≤ '9')

/-- The value of a string of decimal digits. -/
def digitsValue (ds : List Char) : Nat :=
  ds.foldl (fun acc c => acc * 10 + (c.toNat - 48)) 0

/-- Truncation of an integer to a 32-bit `int` in two's complement. -/
def wrap32 (z : Int) : Int := (z + 2147483648) % 4294967296 - 2147483648

/-- Saturation to the range of a 64-bit `long`, as `strtol` does. -/
def clampLong (z : Int) : Int :=
  if z < -9223372036854775808 then -9223372036854775808
  else if 9223372036854775807 < z then 9223372036854775807
  else z

/-- The output of `printf("%d", n)` for a natural number, digits produced
least significant first on `fuel` steps. -/
def fmtNatAux : Nat → Nat → List Char → List Char
  | 0, _, acc => acc
  | fuel + 1, n, acc =>
    let acc1 := Char.ofNat (48 + n % 10) :: acc
    if n / 10 = 0 then acc1 else fmtNatAux fuel (n / 10) acc1

/-- The output of `printf("%d", z)`. -/
def fmtInt (z : Int) : List Char :=
  if z < 0 then '-' :: fmtNatAux (z.natAbs + 1) z.natAbs []
  else fmtNatAux (z.natAbs + 1) z.natAbs []

/-- The functions of the C library that preprocessing.c calls on numbers and
that are not part of the repository: `strtod(str, &endptr)` (the value and the
unparsed rest `endptr`) and the text `snprintf` produces for `"%.6f"`. -/
structure Libc where
  strtod : List Char → Dbl × List Char
  fmt6 : Dbl → List Char

/-! ## preprocessing.c -/

namespace Preprocessing

/-- The macro `MAX_VALUE` (`1e6`). -/
def MAX_VALUE : Dbl := Dbl.fin 1000000

/-- The function `clip_value` of preprocessing.c. -/
def clip_value (x : Dbl) : Dbl :=
  if x.isnan || x.isinf then Dbl.fin 0
  else if Dbl.gt x MAX_VALUE then MAX_VALUE
  else if Dbl.lt x (Dbl.neg MAX_VALUE) then Dbl.neg MAX_VALUE
  else x

/-- `long lines_per_proc = total_lines / size;` (C division truncates toward zero). -/
def lines_per_proc (total_lines size : Int) : Int := Int.tdiv total_lines size

/-- `long start_line = rank * lines_per_proc;` -/
def start_line (total_lines size rank : Int) : Int := rank * lines_per_proc total_lines size

/-- `long end_line = (rank == size - 1) ? total_lines : start_line + lines_per_proc;` -/
def end_line (total_lines size rank : Int) : Int :=
  if rank = size - 1 then total_lines
  else start_line total_lines size rank + lines_per_proc total_lines size

/-- The macro `MAX_LINE_LEN`. -/
def MAX_LINE_LEN : Nat := 65536

/-- The function `is_numeric` of preprocessing.c. -/
def is_numeric (libc : Libc) (str : List Char) : Bool :=
  if str = [] then false
  else decide ((libc.strtod str).2 = [])

/-- The tokenising loop of `main` (lines 88-94): `fields[0 .. n_fields)`, the
tokens `strtok` finds on the line, at most `limit` (256) of them. -/
def splitFields : Nat → List Char → List (List Char)
  | 0, _ => []
  | limit + 1, s =>
    match strtok ',' s with
    | (none, _) => []
    | (some token, rest) => token :: splitFields limit rest

/-- The body of the loop of lines 97-106 for one field: the cleaned text. -/
def cleanField (libc : Libc) (field : List Char) : List Char :=
  if is_numeric libc field then
    (libc.fmt6 (clip_value (libc.strtod field).1)).take 63
  else "0.0".toList

/-- The loop of lines 97-106: fields `7 ≤ i < n_fields - 1` are cleaned. -/
def cleanFields (libc : Libc) (fields : List (List Char)) : List (List Char) :=
  fields.enum.map (fun p =>
    if 7 ≤ p.1 ∧ p.1 + 1 < fields.length then cleanField libc p.2 else p.2)

/-- The text written to the chunk file for one input line (lines 88-113): the
fields joined by commas, then a newline. -/
def cleanLine (libc : Libc) (line : List Char) : List Char :=
  List.intercalate [','] (cleanFields libc (splitFields 256 line)) ++ ['\n']

/-- The cleaning loop (lines 86-115) over the lines `fgets` returns from the
position of the stream: the text it writes. -/
def cleanLoop (libc : Libc) (start_line end_line : Int) : List (List Char) → Int → List Char
  | [], _ => []
  | line :: rest, processed =>
    if start_line + processed < end_line then
      cleanLine libc line ++ cleanLoop libc start_line end_line rest (processed + 1)
    else []

/-- The chunk file `/tmp/processed_chunk_<rank>.csv` that rank `rank` of
`size` writes for the input file (lines 40-118); `none` when reading the
header fails and the run aborts. -/
def chunk (libc : Libc) (input : List Char) (size rank : Int) : Option (List Char) :=
  match readLines MAX_LINE_LEN input with
  | [] => none
  | header :: data =>
    let total_lines : Int := data.length
    let start := start_line total_lines size rank
    let stop := end_line total_lines size rank
    some ((if rank = 0 then header else []) ++
      cleanLoop libc start stop (data.drop start.toNat) 0)

/-- The body of the merge loop for rank `r` (lines 127-136): the text copied
from the chunk file to the final file. -/
def mergeChunk (r : Nat) (chunk_file : List Char) : List Char :=
  let lines := readLines MAX_LINE_LEN chunk_file
  ((if r ≠ 0 then lines.drop 1 else lines)).flatten

/-- The final cleaned file rank 0 writes (lines 122-138) from the chunk files
of ranks `0 .. size - 1`. -/
def merge (header : List Char) (chunks : List (List Char)) : List Char :=
  header ++ (chunks.enum.map (fun p => mergeChunk p.1 p.2)).flatten

/-- The run of preprocessing.c on `size` ranks: the final cleaned file. -/
def main (libc : Libc) (input : List Char) (size : Nat) : Option (List Char) :=
  match readLines MAX_LINE_LEN input with
  | [] => none
  | header :: _ =>
    some (merge header
      ((List.range size).map (fun r => (chunk libc input size r).getD [])))

end Preprocessing

/-! ## detection.c -/

namespace Detection

/-- The macro `MAX_LINE`. -/
def MAX_LINE : Nat := 8192

/-- The macro `WINDOW_SIZE`. -/
def WINDOW_SIZE : Nat := 1000

/-- The variables `sscanf` stores into (lines 45-47 of detection.c). -/
structure ScanVars where
  flow_id : List Char
  src_ip : List Char
  src_port : Int
  dst_ip : List Char
  dst_port : Int
  proto : Int
  timestamp : List Char
  deriving DecidableEq

/-- One item of a `scanf` format: a `%<width>[^,]` conversion, a `%d`
conversion (each with the variable it stores into), a literal character, or
white space. -/
inductive Directive where
  | scanset (width : Nat) (store : List Char → ScanVars → ScanVars) : Directive
  | int (store : Int → ScanVars → ScanVars) : Directive
  | lit (c : Char) : Directive
  | space : Directive

/-- The conversion `%<width>[^,]`: the longest prefix of at most `width`
characters other than a comma; it fails on an empty match. -/
def scanSet (width : Nat) (s : List Char) : Option (List Char × List Char) :=
  let tok := (s.takeWhile (fun c => c != ',')).take width
  if tok = [] then none else some (tok, s.drop tok.length)

/-- The conversion `%d`: white space is skipped, then an optional sign and a
non-empty run of decimal digits is read; the value is stored into an `int`. -/
def scanInt (s : List Char) : Option (Int × List Char) :=
  let s1 := s.dropWhile isspace
  let negative := s1.head? == some '-'
  let s2 := if s1.head? == some '-' || s1.head? == some '+' then s1.drop 1 else s1
  let ds := s2.takeWhile isdigit
  if ds = [] then none
  else
    let v : Int := if negative then -(digitsValue ds : Int) else (digitsValue ds : Int)
    some (wrap32 (clampLong v), s2.drop ds.length)

/-- Runs the items of a format on the input: the number of conversions stored
so far and the variables after the first failing item or the end of the
format.  A conversion stores its value as soon as it succeeds. -/
def runDirectives : List Directive → List Char → Int → ScanVars → Int × ScanVars
  | [], _, count, vars => (count, vars)
  | Directive.scanset w store :: ds, s, count, vars =>
    match scanSet w s with
    | none => (count, vars)
    | some (tok, rest) => runDirectives ds rest (count + 1) (store tok vars)
  | Directive.int store :: ds, s, count, vars =>
    match scanInt s with
    | none => (count, vars)
    | some (v, rest) => runDirectives ds rest (count + 1) (store v vars)
  | Directive.lit c :: ds, s, count, vars =>
    match s with
    | [] => (count, vars)
    | x :: rest => if x = c then runDirectives ds rest count vars else (count, vars)
  | Directive.space :: ds, s, count, vars =>
    runDirectives ds (s.dropWhile isspace) count vars

/-- The format `"%127[^,], %63[^,], %d, %63[^,], %d, %d, %63[^,]"` with the
arguments of line 59. -/
def rowFormat : List Directive :=
  [ Directive.scanset 127 (fun t v => { v with flow_id := t }),
    Directive.lit ',', Directive.space,
    Directive.scanset 63 (fun t v => { v with src_ip := t }),
    Directive.lit ',', Directive.space,
    Directive.int (fun n v => { v with src_port := n }),
    Directive.lit ',', Directive.space,
    Directive.scanset 63 (fun t v => { v with dst_ip := t }),
    Directive.lit ',', Directive.space,
    Directive.int (fun n v => { v with dst_port := n }),
    Directive.lit ',', Directive.space,
    Directive.int (fun n v => { v with proto := n }),
    Directive.lit ',', Directive.space,
    Directive.scanset 63 (fun t v => { v with timestamp := t }) ]

/-- The call `sscanf(buffer, "%127[^,], ...", flow_id, src_ip, &src_port,
dst_ip, &dst_port, &proto, timestamp)` of lines 58-59: the value returned
(`-1` is `EOF`) and the variables after the call. -/
def sscanf (buffer : List Char) (vars : ScanVars) : Int × ScanVars :=
  if buffer = [] then (-1, vars)
  else runDirectives rowFormat buffer 0 vars

/-- One row of a per-rank result file, as written by line 76 or line 96. -/
structure Verdict where
  src_ip : List Char
  dst_ip : List Char
  entropy_flag : Int
  cusum_flag : Int
  deriving DecidableEq

/-- The text `fprintf(out, "%s,%s,%d,%d\n", ...)` writes for a verdict. -/
def Verdict.render (v : Verdict) : List Char :=
  v.src_ip ++ [','] ++ v.dst_ip ++ [','] ++ fmtInt v.entropy_flag ++ [','] ++
    fmtInt v.cusum_flag ++ ['\n']

/-- The function `cusum_detect`: the value returned and the static variable
`S` after the call, from the arguments and `S` before the call. -/
def cusum_detect {D : Type} (ops : DoubleOps D) (value mean : D) (S : D) : Int × D :=
  let threshold := ops.mul mean ops.tenth
  let S1 := ops.add S (ops.sub value mean)
  if ops.gt (ops.fabs S1) threshold then (1, ops.zero) else (0, S1)

/-- The loop `for (i ...) sum += packet_counts[i];` from `sum`. -/
def sumLoop {D : Type} (ops : DoubleOps D) : List Int → D → D
  | [], sum => sum
  | x :: xs, sum => sumLoop ops xs (ops.add sum (ops.ofInt x))

/-- The loop `for (i ...) cusum_flag |= cusum_detect(packet_counts[i], mean);`
from `cusum_flag` and `S`: the flag and `S` after the loop. -/
def cusumLoop {D : Type} (ops : DoubleOps D) (mean : D) : List Int → Int → D → Int × D
  | [], cusum_flag, S => (cusum_flag, S)
  | x :: xs, cusum_flag, S =>
    cusumLoop ops mean xs
      (Int.lor cusum_flag (cusum_detect ops (ops.ofInt x) mean S).1)
      (cusum_detect ops (ops.ofInt x) mean S).2

/-- The state of the loop of `process_csv`: the variables `sscanf` stores
into, the entries `packet_counts[0 .. idx)` (so that `idx` is the length of
the list; entries from `idx` on are never read), `line_idx`, `local_flows`,
the static variable `S` of `cusum_detect`, and the verdict rows written to
`out` so far. -/
structure LoopState (D : Type) where
  vars : ScanVars
  packet_counts : List Int
  line_idx : Int
  local_flows : Int
  S : D
  out : List Verdict

/-- The values the buffers and integers of lines 45-47 hold before the first
`sscanf`; they are never read before a call of `sscanf` has stored all seven. -/
def emptyVars : ScanVars := ⟨[], [], 0, [], 0, 0, []⟩

/-- The state on entry of the loop of line 55; `S` is zero-initialised. -/
def initState {D : Type} (ops : DoubleOps D) : LoopState D :=
  { vars := emptyVars, packet_counts := [], line_idx := 0, local_flows := 0,
    S := ops.zero, out := [] }

/-- The mean of lines 65-67 and 85-87: `sum / idx`. -/
def windowMean {D : Type} (ops : DoubleOps D) (packet_counts : List Int) : D :=
  ops.div (sumLoop ops packet_counts ops.zero) (ops.ofInt packet_counts.length)

/-- The evaluation of the window, lines 65-76 and 78, and the same text again
at lines 85-97: the verdict row is written and `local_flows` incremented. -/
def flushWindow {D : Type} (ops : DoubleOps D) (st : LoopState D) : LoopState D :=
  let mean := windowMean ops st.packet_counts
  let entropy_flag : Int := 1
  let r := cusumLoop ops mean st.packet_counts 0 st.S
  let cusum_flag := r.1
  let entropy_flag := if entropy_flag = 0 ∧ cusum_flag = 0 then 1 else entropy_flag
  { st with
    S := r.2
    out := st.out ++ [⟨st.vars.src_ip, st.vars.dst_ip, entropy_flag, cusum_flag⟩]
    local_flows := st.local_flows + 1 }

/-- Lines 62-79: the sample is stored at `packet_counts[idx++]`; when `idx`
reaches `WINDOW_SIZE` the window is evaluated and `idx` reset. -/
def pushSample {D : Type} (ops : DoubleOps D) (st : LoopState D) (sample : Int) : LoopState D :=
  let st1 : LoopState D := { st with packet_counts := st.packet_counts ++ [sample] }
  if st1.packet_counts.length = WINDOW_SIZE then
    { flushWindow ops st1 with packet_counts := [] }
  else st1

/-- The body of the loop of lines 55-81 for one line read by `fgets`. -/
def step {D : Type} (ops : DoubleOps D) (rank size : Int) (st : LoopState D)
    (buffer : List Char) : LoopState D :=
  if Int.tmod st.line_idx size ≠ rank then { st with line_idx := st.line_idx + 1 }
  else
    let r := sscanf buffer st.vars
    if r.1 < 7 then { st with vars := r.2, line_idx := st.line_idx + 1 }
    else
      let st1 : LoopState D :=
        pushSample ops { st with vars := r.2 } (wrap32 (r.2.src_port + r.2.dst_port))
      { st1 with line_idx := st1.line_idx + 1 }

/-- The flush of lines 83-98, after the loop. -/
def finish {D : Type} (ops : DoubleOps D) (st : LoopState D) : LoopState D :=
  if 0 < st.packet_counts.length then flushWindow ops st else st

/-- The state at line 100 of `process_csv` on an opened input: the header
line is skipped, the loop runs over the other lines, the rest is flushed. -/
def runFile {D : Type} (ops : DoubleOps D) (csv : List Char) (rank size : Int) : LoopState D :=
  finish ops (((readLines MAX_LINE csv).drop 1).foldl (step ops rank size) (initState ops))

/-- The function `process_csv`: the verdict rows written to `outpath` after
its header line (`none` when a file cannot be opened and nothing is written)
and the value of `*total_flows` on return.  `csv` is the content of
`filepath`, `none` when it cannot be opened; `outOk` tells whether `outpath`
can be created. -/
def process_csv {D : Type} (ops : DoubleOps D) (csv : Option (List Char)) (outOk : Bool)
    (rank size : Int) (total_flows : Int) : Option (List Verdict) × Int :=
  match csv with
  | none => (none, total_flows)
  | some text =>
    if outOk = false then (none, total_flows)
    else (some (runFile ops text rank size).out, (runFile ops text rank size).local_flows)

/-- The content of a per-rank result file with the given verdict rows. -/
def resultFile (rows : List Verdict) : List Char :=
  "source_ip,dest_ip,entropy_flag,cusum_flag\n".toList ++ (rows.map Verdict.render).flatten

/-- The throughput of line 145: `recv_val / global_max_latency`, an `int`
divided by a `double`. -/
def throughput (recv_val : Int) (global_max_latency : Dbl) : Dbl :=
  Dbl.div (Dbl.ofInt recv_val) global_max_latency

/-! ### Vocabulary of the specification for the detector -/

/-- The data rows of a cleaned file, as `process_csv` reads them. -/
def dataRows (csv : List Char) : List (List Char) := (readLines MAX_LINE csv).drop 1

/-- Row `i` belongs to the share of `rank`: `i % size == rank`. -/
def rowInShare (rank size : Int) (i : Nat) : Bool := decide (Int.tmod (i : Int) size = rank)

/-- The row parses at least 7 fields. -/
def rowParses (row : List Char) : Bool := decide (7 ≤ (sscanf row emptyVars).1)

/-- The rows of the share of `rank` that parse at least 7 fields, in order. -/
def shareRows (rank size : Int) (csv : List Char) : List (List Char) :=
  (((dataRows csv).enum.filter (fun p => rowInShare rank size p.1 && rowParses p.2)).map
    Prod.snd)

/-- The sample of a row: `src_port + dst_port`. -/
def rowSample (row : List Char) : Int :=
  wrap32 ((sscanf row emptyVars).2.src_port + (sscanf row emptyVars).2.dst_port)

/-- The samples pushed by the worker, in order. -/
def samples (rank size : Int) (csv : List Char) : List Int :=
  (shareRows rank size csv).map rowSample

/-- The part of the state of the loop that the count of verdicts and their
`cusum_flag` depend on: the window, the running sum, the verdicts counted and
the flags written. -/
def core {D : Type} (st : LoopState D) : List Int × D × Int × List Int :=
  (st.packet_counts, st.S, st.local_flows, st.out.map (fun v => v.cusum_flag))

/-- The samples pushed for the rows `rows`, the first of which has index
`first`. -/
def samplesFrom (rank size : Int) (first : Nat) (rows : List (List Char)) : List Int :=
  (((rows.enumFrom first).filter (fun p => rowInShare rank size p.1 && rowParses p.2)).map
    Prod.snd).map rowSample

/-- The lines of a text file, newline included: what `fgets` returns when its
buffer is larger than the file, so that no line is cut. -/
def fileLines (csv : List Char) : List (List Char) := readLines (csv.length + 2) csv

/-- The data rows of a cleaned file: its lines after the header line. -/
def fileRows (csv : List Char) : List (List Char) := (fileLines csv).drop 1

/-- Among `rows`, indexed from 0, those of the share of `rank` that parse at
least 7 fields, in order. -/
def shareOf (rank size : Int) (rows : List (List Char)) : List (List Char) :=
  ((rows.enum.filter (fun p => rowInShare rank size p.1 && rowParses p.2)).map Prod.snd)

/-- The mean of a window in the specification: the sum of its samples, added
in order from 0, divided by their number. -/
def specMean {D : Type} (ops : DoubleOps D) (w : List Int) : D :=
  ops.div (w.foldl (fun acc x => ops.add acc (ops.ofInt x)) ops.zero) (ops.ofInt w.length)

/-- The CUSUM recurrence of the specification on one window with mean `m`,
from the running sum `S`: every sample `x` in order updates `S` to
`S + (x - m)` and resets it to `0` when `|S| > 0.1 m`.  The result tells
whether a reset occurred and gives `S` after the last sample. -/
def specCusumWindow {D : Type} (ops : DoubleOps D) (m : D) : List Int → D → Bool × D
  | [], S => (false, S)
  | x :: xs, S =>
    let S1 := ops.add S (ops.sub (ops.ofInt x) m)
    let reset := ops.gt (ops.fabs S1) (ops.mul m ops.tenth)
    let r := specCusumWindow ops m xs (if reset then ops.zero else S1)
    (reset || r.1, r.2)

/-- The `cusum_flag` of the specification for a sequence of windows: each
window is run with its own mean, from the running sum the window before it
left. -/
def specFlags {D : Type} (ops : DoubleOps D) : List (List Int) → D → List Int
  | [], _ => []
  | w :: ws, S =>
    (if (specCusumWindow ops (specMean ops w) w S).1 then 1 else 0) ::
      specFlags ops ws (specCusumWindow ops (specMean ops w) w S).2

/-! ### Example inputs -/

/-- The line is newline-terminated, holds no other newline and fits a buffer
of `n` characters. -/
def isLine (n : Nat) (l : List Char) : Bool :=
  l.getLast? == some '\n' && !(l.dropLast.contains '\n') && decide (l.length < n)

/-- A header line of a cleaned file. -/
def exHeader : List Char :=
  "Flow ID,Src IP,Src Port,Dst IP,Dst Port,Protocol,Timestamp\n".toList

/-- A row whose sample `src_port + dst_port` is 1200. -/
def row1200 : List Char := "f,10.0.0.1,1200,10.0.0.2,0,6,t\n".toList

/-- A row whose sample is 940. -/
def row940 : List Char := "f,10.0.0.1,940,10.0.0.2,0,6,t\n".toList

/-- A row whose sample is 980. -/
def row980 : List Char := "f,10.0.0.1,980,10.0.0.2,0,6,t\n".toList

/-- A row whose sample is 1000. -/
def row1000 : List Char := "f,10.0.0.1,1000,10.0.0.2,0,6,t\n".toList

/-- A row whose sample is 95. -/
def row95 : List Char := "f,10.0.0.1,95,10.0.0.2,0,6,t\n".toList

/-- A row whose sample is 105. -/
def row105 : List Char := "f,10.0.0.1,105,10.0.0.2,0,6,t\n".toList

/-- The cleaned file with the given header and rows. -/
def fileOf (header : List Char) (rows : List (List Char)) : List Char :=
  (header :: rows).flatten

/-- A cleaned file of 1500 rows that all parse. -/
def file1500 : List Char := fileOf exHeader (List.replicate 1500 row1000)

/-- A window of 1000 samples of mean 1000 that leaves the running sum at
`-80`: 995 times 1000, then 1200, 940, 940, 940 and 980.  The running sums
are 0, 200 (reset), -60, -120 (reset), -60 and -80, against the threshold
100. -/
def windowA : List Int := List.replicate 995 1000 ++ [1200, 940, 940, 940, 980]

/-- The rows of the window `windowA`. -/
def rowsWindowA : List (List Char) :=
  List.replicate 995 row1000 ++ [row1200, row940, row940, row940, row980]

/-- A cleaned file of 1002 rows: the window `windowA`, then the samples 95
and 105. -/
def fileA : List Char := fileOf exHeader (rowsWindowA ++ [row95, row105])

/-- A cleaned file of two rows, of samples 95 and 105. -/
def fileB : List Char := fileOf exHeader [row95, row105]

/-- The first 8191 characters of `longRow`: six fields and the start of a
seventh. -/
def longRowHead : List Char :=
  "f,10.0.0.1,1000,10.0.0.2,0,6,".toList ++ List.replicate 8162 'x'

/-- The rest of `longRow`, from its character 8192 on. -/
def longRowTail : List Char := "f,10.0.0.1,1000,10.0.0.2,0,6,t\n".toList

/-- A row of 8222 characters with a long seventh field. -/
def longRow : List Char := longRowHead ++ longRowTail

/-- A cleaned file of 1000 rows, the last of which is `longRow`. -/
def fileLong : List Char := fileOf exHeader (List.replicate 999 row1000 ++ [longRow])

end Detection

/-! ## blocking.c -/

namespace Blocking

/-- The macro `MAX_LINE` of blocking.c. -/
def MAX_LINE : Nat := 1024

/-- The function `ip_exists` over `ips[0 .. count)`. -/
def ip_exists : List (List Char) → List Char → Bool
  | [], _ => false
  | x :: xs, ip => if x = ip then true else ip_exists xs ip

/-- The body of the loop of lines 40-51 for one line: three calls of `strtok`,
then the second and the third token are appended when they are not yet in
`ips`. -/
def addLine (ips : List (List Char)) (line : List Char) : List (List Char) :=
  let t0 := strtok ',' line
  let t1 := strtok ',' t0.2
  let t2 := strtok ',' t1.2
  let ips1 :=
    match t1.1 with
    | some src_ip => if ip_exists ips src_ip then ips else ips ++ [src_ip]
    | none => ips
  match t2.1 with
  | some dst_ip => if ip_exists ips1 dst_ip then ips1 else ips1 ++ [dst_ip]
  | none => ips1

/-- The array `ips[0 .. ipcount)` after the loop of lines 36-51 on the result
file of the rank. -/
def readIps (file : List Char) : List (List Char) :=
  ((readLines MAX_LINE file).drop 1).foldl addLine []

/-- The file `rtbh_rules_rank<rank>.txt` (lines 65-68). -/
def rtbhRules (ips : List (List Char)) : List Char :=
  "=== RTBH Simulation Rules ===\n".toList ++
    (ips.map (fun ip => "BLACKHOLE ".toList ++ ip ++ ['\n'])).flatten

/-- The file `rate_limit_rules_rank<rank>.txt` (lines 79-82). -/
def rateLimitRules (ips : List (List Char)) : List Char :=
  "=== Rate-Limiting / ACL Rules ===\n".toList ++
    (ips.map (fun ip => "ACL_DENY ".toList ++ ip ++ " 5pps\n".toList)).flatten

end Blocking

/-! ## evaluation.c -/

namespace Evaluation

/-- The macro `MAX_LINE` of evaluation.c. -/
def MAX_LINE : Nat := 1024

/-- The function `ip_exists` over `ips[0 .. count)`. -/
def ip_exists : List (List Char) → List Char → Bool
  | [], _ => false
  | x :: xs, ip => if x = ip then true else ip_exists xs ip

/-- The loop of lines 26-37 over the lines of one file, from the array
`detected_ips[0 .. count)`: it stops once `count >= max_ips`. -/
def loadLines (max_ips : Nat) : List (List Char) → List (List Char) → List (List Char)
  | [], ips => ips
  | line :: rest, ips =>
    let t0 := strtok ',' line
    let t1 := strtok ',' t0.2
    let t2 := strtok ',' t1.2
    let ips1 :=
      match t1.1 with
      | some src_ip => if ip_exists ips src_ip then ips else ips ++ [src_ip]
      | none => ips
    let ips2 :=
      match t2.1 with
      | some dst_ip => if ip_exists ips1 dst_ip then ips1 else ips1 ++ [dst_ip]
      | none => ips1
    if max_ips ≤ ips2.length then ips2 else loadLines max_ips rest ips2

/-- The function `load_detected_ips`: `files` lists, for the ranks 0 to 5, the
content of `results/det_rank<rank>.csv`, `none` when it cannot be opened. -/
def load_detected_ips (files : List (Option (List Char))) (max_ips : Nat) : List (List Char) :=
  (files.take 6).foldl
    (fun ips file =>
      match file with
      | none => ips
      | some text => loadLines max_ips ((readLines MAX_LINE text).drop 1) ips)
    []

end Evaluation


/-! # Theorems -/

/-! ## preprocessing.c: clipping and partition -/

open Preprocessing in
/-- C4: `clip_value` is idempotent on every double; on a finite `x` its
result is finite and lies in `[-1e6, 1e6]`, and it is `x` itself when `x`
already lies there; NaN and both infinities are sent to `0.0`; `2e6` is sent
to `1e6` and `-2e6` to `-1e6`. -/
theorem clip_value_idempotent_bounded :
    (∀ x : Dbl, clip_value (clip_value x) = clip_value x) ∧
    (∀ q : Rat, ∃ r : Rat, clip_value (Dbl.fin q) = Dbl.fin r ∧
      -1000000 ≤ r ∧ r ≤ 1000000 ∧ (-1000000 ≤ q ∧ q ≤ 1000000 → r = q)) ∧
    clip_value Dbl.nan = Dbl.fin 0 ∧
    clip_value Dbl.pinf = Dbl.fin 0 ∧
    clip_value Dbl.ninf = Dbl.fin 0 ∧
    clip_value (Dbl.fin 2000000) = Dbl.fin 1000000 ∧
    clip_value (Dbl.fin (-2000000)) = Dbl.fin (-1000000) := by
  have hfin : ∀ q : Rat, clip_value (Dbl.fin q) =
      if 1000000 < q then Dbl.fin 1000000
      else if q < -1000000 then Dbl.fin (-1000000) else Dbl.fin q := by
    intro q
    simp [clip_value, Dbl.isnan, Dbl.isinf, Dbl.gt, Dbl.lt, Dbl.neg, MAX_VALUE]
  have hnan : clip_value Dbl.nan = Dbl.fin 0 := by simp [clip_value, Dbl.isnan]
  have hpinf : clip_value Dbl.pinf = Dbl.fin 0 := by simp [clip_value, Dbl.isnan, Dbl.isinf]
  have hninf : clip_value Dbl.ninf = Dbl.fin 0 := by simp [clip_value, Dbl.isnan, Dbl.isinf]
  have hzero : clip_value (Dbl.fin 0) = Dbl.fin 0 := by rw [hfin]; norm_num
  refine ⟨?_, ?_, hnan, hpinf, hninf, ?_, ?_⟩
  · intro x
    cases x with
    | nan => rw [hnan, hzero]
    | pinf => rw [hpinf, hzero]
    | ninf => rw [hninf, hzero]
    | fin q =>
      rw [hfin q]
      split_ifs with h1 h2
      · rw [hfin]; norm_num
      · rw [hfin]; norm_num
      · rw [hfin]; simp [h1, h2]
  · intro q
    rw [hfin q]
    split_ifs with h1 h2
    · exact ⟨1000000, rfl, by norm_num, le_refl _, fun h => absurd h.2 (not_le.mpr h1)⟩
    · exact ⟨-1000000, rfl, le_refl _, by norm_num, fun h => absurd h.1 (not_le.mpr h2)⟩
    · exact ⟨q, rfl, not_lt.mp h2, not_lt.mp h1, fun _ => rfl⟩
  · rw [hfin]; norm_num
  · rw [hfin]; norm_num


/-- The quotient `total_lines / size` is non-negative and brackets
`total_lines` between two consecutive multiples of `size`. -/
theorem lines_per_proc_bounds (total_lines size : Int) (h0 : 0 ≤ total_lines) (h1 : 1 ≤ size) :
    0 ≤ Preprocessing.lines_per_proc total_lines size ∧
    size * Preprocessing.lines_per_proc total_lines size ≤ total_lines ∧
    total_lines < size * (Preprocessing.lines_per_proc total_lines size + 1) := by
  have hs : 0 < size := by omega
  unfold Preprocessing.lines_per_proc
  rw [Int.tdiv_eq_ediv h0 (le_of_lt hs)]
  refine ⟨Int.ediv_nonneg h0 (le_of_lt hs), ?_, ?_⟩
  · have := Int.ediv_add_emod total_lines size
    have := Int.emod_nonneg total_lines (ne_of_gt hs)
    linarith
  · have := Int.ediv_add_emod total_lines size
    have := Int.emod_lt_of_pos total_lines hs
    linarith

open Preprocessing in
/-- C1: for `total_rows ≥ 0` and `worker_count ≥ 1` the ranges
`[start_line, end_line)` of the ranks `0 .. worker_count - 1` start at 0, end
at `total_rows`, are contiguous (each ends where the next starts) and never
reversed, are pairwise disjoint, cover every row index of `[0, total_rows)`
exactly once and nothing else, and the last rank's range is at least as long
as any other;
10 rows on 2 workers give `[0,5)` and `[5,10)`. -/
theorem partition_coverage (total_rows worker_count : Int)
    (h0 : 0 ≤ total_rows) (h1 : 1 ≤ worker_count) :
    start_line total_rows worker_count 0 = 0 ∧
    end_line total_rows worker_count (worker_count - 1) = total_rows ∧
    (∀ r, 0 ≤ r → r < worker_count - 1 →
      end_line total_rows worker_count r = start_line total_rows worker_count (r + 1)) ∧
    (∀ r, 0 ≤ r → r < worker_count →
      start_line total_rows worker_count r ≤ end_line total_rows worker_count r) ∧
    (∀ row, 0 ≤ row → row < total_rows →
      ∃! r, (0 ≤ r ∧ r < worker_count) ∧
        start_line total_rows worker_count r ≤ row ∧ row < end_line total_rows worker_count r) ∧
    (∀ r row, 0 ≤ r → r < worker_count →
      start_line total_rows worker_count r ≤ row → row < end_line total_rows worker_count r →
      0 ≤ row ∧ row < total_rows) ∧
    (∀ r1 r2 row, 0 ≤ r1 → r1 < worker_count → 0 ≤ r2 → r2 < worker_count →
      start_line total_rows worker_count r1 ≤ row → row < end_line total_rows worker_count r1 →
      start_line total_rows worker_count r2 ≤ row → row < end_line total_rows worker_count r2 →
      r1 = r2) ∧
    (∀ r, 0 ≤ r → r < worker_count →
      end_line total_rows worker_count r - start_line total_rows worker_count r ≤
        end_line total_rows worker_count (worker_count - 1) -
          start_line total_rows worker_count (worker_count - 1)) ∧
    (start_line 10 2 0 = 0 ∧ end_line 10 2 0 = 5 ∧
      start_line 10 2 1 = 5 ∧ end_line 10 2 1 = 10) := by
  obtain ⟨hL0, hLle, hLlt⟩ := lines_per_proc_bounds total_rows worker_count h0 h1
  generalize hL : lines_per_proc total_rows worker_count = L at hL0 hLle hLlt
  -- the closed forms of the two bounds
  have hstart : ∀ r, start_line total_rows worker_count r = r * L := by
    intro r; simp [start_line, hL]
  have hend_last : end_line total_rows worker_count (worker_count - 1) = total_rows := by
    simp [end_line]
  have hend : ∀ r, r < worker_count - 1 →
      end_line total_rows worker_count r = (r + 1) * L := by
    intro r hr
    have hne : r ≠ worker_count - 1 := ne_of_lt hr
    simp [end_line, hne, hstart, hL]; ring
  -- every range ends at or before the start of the last one when it is not the last
  have hmono : ∀ a b : Int, a ≤ b → a * L ≤ b * L := fun a b hab =>
    mul_le_mul_of_nonneg_right hab hL0
  have hlastStart : (worker_count - 1) * L ≤ total_rows := by
    have : (worker_count - 1) * L ≤ worker_count * L := hmono _ _ (by omega)
    linarith
  -- disjointness, used twice
  have hdisj : ∀ r1 r2 row, 0 ≤ r1 → r1 < worker_count → 0 ≤ r2 → r2 < worker_count →
      start_line total_rows worker_count r1 ≤ row → row < end_line total_rows worker_count r1 →
      start_line total_rows worker_count r2 ≤ row → row < end_line total_rows worker_count r2 →
      r1 = r2 := by
    intro r1 r2 row h10 h1W h20 h2W hs1 he1 hs2 he2
    by_contra hne
    rcases lt_or_gt_of_ne hne with hlt | hgt
    · have hr1 : r1 < worker_count - 1 := by omega
      rw [hend r1 hr1] at he1
      rw [hstart] at hs2
      have := hmono (r1 + 1) r2 (by omega)
      linarith
    · have hr2 : r2 < worker_count - 1 := by omega
      rw [hend r2 hr2] at he2
      rw [hstart] at hs1
      have := hmono (r2 + 1) r1 (by omega)
      linarith
  refine ⟨by simp [hstart], hend_last, ?_, ?_, ?_, ?_, hdisj, ?_, ?_⟩
  · intro r _ hr
    rw [hend r hr, hstart]
  · intro r hr0 hrW
    by_cases hlast : r = worker_count - 1
    · subst hlast; rw [hend_last, hstart]; exact hlastStart
    · rw [hend r (by omega), hstart]; nlinarith
  · intro row hrow0 hrowT
    by_cases hcase : row < (worker_count - 1) * L
    · -- the row lies in the range of rank `row / L`
      have hLpos : 0 < L := by
        by_contra hL'
        have : L = 0 := by omega
        subst this; simp at hcase; omega
      have hq0 : 0 ≤ row / L := Int.ediv_nonneg hrow0 (le_of_lt hLpos)
      have hdm := Int.ediv_add_emod row L
      have hm0 := Int.emod_nonneg row (ne_of_gt hLpos)
      have hmL := Int.emod_lt_of_pos row hLpos
      have hqlt : row / L < worker_count - 1 := by
        by_contra hge
        have := hmono (worker_count - 1) (row / L) (by omega)
        nlinarith
      refine ⟨row / L, ⟨⟨hq0, by omega⟩, ?_, ?_⟩, ?_⟩
      · rw [hstart]; nlinarith
      · rw [hend _ hqlt]; nlinarith
      · rintro r ⟨⟨hr0, hrW⟩, hs, he⟩
        exact hdisj r (row / L) row hr0 hrW hq0 (by omega) hs he
          (by rw [hstart]; nlinarith) (by rw [hend _ hqlt]; nlinarith)
    · -- the row lies in the range of the last rank
      have hin : start_line total_rows worker_count (worker_count - 1) ≤ row ∧
          row < end_line total_rows worker_count (worker_count - 1) := by
        rw [hstart, hend_last]; exact ⟨not_lt.mp hcase, hrowT⟩
      refine ⟨worker_count - 1, ⟨⟨by omega, by omega⟩, hin⟩, ?_⟩
      rintro r ⟨⟨hr0, hrW⟩, hs, he⟩
      exact hdisj r (worker_count - 1) row hr0 hrW (by omega) (by omega) hs he hin.1 hin.2
  · intro r row hr0 hrW hs he
    rw [hstart] at hs
    have hrL : 0 ≤ r * L := mul_nonneg hr0 hL0
    refine ⟨by linarith, ?_⟩
    by_cases hlast : r = worker_count - 1
    · subst hlast; rw [hend_last] at he; exact he
    · rw [hend r (by omega)] at he
      have := hmono (r + 1) worker_count (by omega)
      linarith
  · intro r hr0 hrW
    by_cases hlast : r = worker_count - 1
    · subst hlast; exact le_refl _
    · rw [hend r (by omega), hstart, hend_last, hstart]
      nlinarith
  · decide

/-- Witness of C1 at 10 rows and 3 workers: the ranges are `[0,3)`, `[3,6)`
and `[6,10)`. -/
theorem partition_coverage_witness :
    (0 : Int) ≤ 10 ∧ (1 : Int) ≤ 3 ∧
    Preprocessing.start_line 10 3 0 = 0 ∧
    Preprocessing.end_line 10 3 (3 - 1) = 10 ∧
    (∀ r, 0 ≤ r → r < 3 →
      Preprocessing.end_line 10 3 r - Preprocessing.start_line 10 3 r ≤
        Preprocessing.end_line 10 3 (3 - 1) - Preprocessing.start_line 10 3 (3 - 1)) :=
  ⟨by decide, by decide,
    (partition_coverage 10 3 (by decide) (by decide)).1,
    (partition_coverage 10 3 (by decide) (by decide)).2.1,
    (partition_coverage 10 3 (by decide) (by decide)).2.2.2.2.2.2.2.1⟩


/-! ## preprocessing.c: cleaning and merging on concrete inputs -/

/-- C3: on the row `f1,10.0.0.1,80,10.0.0.2,443,6,ts,,5` (nine fields, the
eighth empty, newline-terminated) the cleaning loop writes two lines, the
first with eight fields: `strtok` drops the empty field and the newline kept in
the last token is followed by the newline the loop writes.  This holds for any
behaviour of `strtod` and `snprintf`. -/
theorem cleanLine_drops_empty_field_and_doubles_newline :
    ∀ libc : Libc,
      Preprocessing.cleanLine libc "f1,10.0.0.1,80,10.0.0.2,443,6,ts,,5\n".toList =
        "f1,10.0.0.1,80,10.0.0.2,443,6,ts,5\n\n".toList ∧
      Preprocessing.cleanLine libc "a,b\n".toList = "a,b\n\n".toList := by
  intro libc
  exact ⟨rfl, rfl⟩

/-- C2: on the input `h`, `a`, `b` (a header and two data rows) and two
workers, the chunk of rank 0 is the header, `a` and an empty line, the chunk of
rank 1 is `b` and an empty line, and the merged file is the header twice, then
`a` and two empty lines: the header is copied again with the chunk of rank 0
and the first line of the chunk of rank 1, the row `b`, is skipped as if it
were a header. -/
theorem merge_repeats_header_and_drops_row :
    ∀ libc : Libc,
      Preprocessing.chunk libc "h\na\nb\n".toList 2 0 = some "h\na\n\n".toList ∧
      Preprocessing.chunk libc "h\na\nb\n".toList 2 1 = some "b\n\n".toList ∧
      Preprocessing.main libc "h\na\nb\n".toList 2 = some "h\nh\na\n\n\n".toList ∧
      Preprocessing.main libc "h\na\nb\n".toList 1 = some "h\nh\na\n\nb\n\n".toList := by
  intro libc
  exact ⟨rfl, rfl, rfl, rfl⟩

/-! ## detection.c: concrete runs -/

/-- C6: on a cleaned file whose first data row parses (`1.1.1.1` to
`2.2.2.2`, sample pushed) and whose second row fails at the fifth field
(`9.9.9.9` to `8.8.8.8`, skipped), the only row of the share that parses is the
first one, yet the verdict written at the end of the stream carries the
addresses of the skipped row: `sscanf` had already stored them. -/
theorem skipped_row_changes_verdict_ips :
    ∀ (D : Type) (ops : DoubleOps D),
      Detection.shareRows 0 1
          "h\nf1,1.1.1.1,80,2.2.2.2,443,6,t1\nf2,9.9.9.9,80,8.8.8.8,x,6,t2\n".toList =
        ["f1,1.1.1.1,80,2.2.2.2,443,6,t1\n".toList] ∧
      (Detection.sscanf "f2,9.9.9.9,80,8.8.8.8,x,6,t2\n".toList Detection.emptyVars).1 = 4 ∧
      ((Detection.process_csv ops
          (some "h\nf1,1.1.1.1,80,2.2.2.2,443,6,t1\nf2,9.9.9.9,80,8.8.8.8,x,6,t2\n".toList)
          true 0 1 0).1.map
            (List.map (fun v => (v.src_ip, v.dst_ip)))) =
        some [("9.9.9.9".toList, "8.8.8.8".toList)] := by
  intro D ops
  exact ⟨by decide, by decide, rfl⟩

/-- C8: with a maximal latency of `0` the throughput of line 145 is NaN for
zero verdicts, plus infinity for a positive count, and never a finite value. -/
theorem throughput_zero_latency_not_finite :
    Detection.throughput 0 (Dbl.fin 0) = Dbl.nan ∧
    Detection.throughput 3 (Dbl.fin 0) = Dbl.pinf ∧
    (∀ recv_val : Int, (Detection.throughput recv_val (Dbl.fin 0)).isFinite = false) := by
  refine ⟨by decide, by decide, ?_⟩
  intro n
  simp only [Detection.throughput, Dbl.ofInt, Dbl.div]
  by_cases h0 : (n : Rat) = 0
  · simp [h0, Dbl.isFinite]
  · by_cases h1 : (0 : Rat) < n
    · simp [h0, h1, Dbl.isFinite]
    · simp [h0, h1, Dbl.isFinite]

/-! ## blocking.c and evaluation.c: concrete runs -/

/-- C9: on the result file with the single verdict row
`10.0.0.1,10.0.0.2,1,0` (as `process_csv` writes it) blocking.c collects
`10.0.0.2` and `1`, and writes `BLACKHOLE` and `ACL_DENY` lines for them;
`load_detected_ips` builds the same list.  The source address `10.0.0.1` is
missing and the entropy flag `1` is taken for an address: the first token of
a row is read as a timestamp. -/
theorem readIps_takes_second_and_third_column :
    Detection.resultFile [⟨"10.0.0.1".toList, "10.0.0.2".toList, 1, 0⟩] =
      "source_ip,dest_ip,entropy_flag,cusum_flag\n10.0.0.1,10.0.0.2,1,0\n".toList ∧
    Blocking.readIps "source_ip,dest_ip,entropy_flag,cusum_flag\n10.0.0.1,10.0.0.2,1,0\n".toList =
      ["10.0.0.2".toList, "1".toList] ∧
    Blocking.rtbhRules
        (Blocking.readIps
          "source_ip,dest_ip,entropy_flag,cusum_flag\n10.0.0.1,10.0.0.2,1,0\n".toList) =
      "=== RTBH Simulation Rules ===\nBLACKHOLE 10.0.0.2\nBLACKHOLE 1\n".toList ∧
    Blocking.rateLimitRules
        (Blocking.readIps
          "source_ip,dest_ip,entropy_flag,cusum_flag\n10.0.0.1,10.0.0.2,1,0\n".toList) =
      "=== Rate-Limiting / ACL Rules ===\nACL_DENY 10.0.0.2 5pps\nACL_DENY 1 5pps\n".toList ∧
    Evaluation.load_detected_ips
        [some "source_ip,dest_ip,entropy_flag,cusum_flag\n10.0.0.1,10.0.0.2,1,0\n".toList]
        100000 =
      ["10.0.0.2".toList, "1".toList] := by
  refine ⟨by decide, by decide, by decide, by decide, by decide⟩


/-! ## detection.c: the loop of `process_csv` -/

namespace Detection

/-- The value `sscanf` returns does not depend on what the variables held. -/
theorem runDirectives_count (ds : List Directive) :
    ∀ (s : List Char) (count : Int) (v v' : ScanVars),
      (runDirectives ds s count v).1 = (runDirectives ds s count v').1 := by
  induction ds with
  | nil => intro s count v v'; rfl
  | cons d ds ih =>
    intro s count v v'
    cases d with
    | scanset w store =>
      simp only [runDirectives]
      cases scanSet w s with
      | none => rfl
      | some p => exact ih _ _ _ _
    | int store =>
      simp only [runDirectives]
      cases scanInt s with
      | none => rfl
      | some p => exact ih _ _ _ _
    | lit c =>
      cases s with
      | nil => rfl
      | cons x rest =>
        simp only [runDirectives]
        split_ifs
        · exact ih _ _ _ _
        · rfl
    | space =>
      simp only [runDirectives]
      exact ih _ _ _ _

theorem sscanf_count (buffer : List Char) (v v' : ScanVars) :
    (sscanf buffer v).1 = (sscanf buffer v').1 := by
  unfold sscanf
  split_ifs
  · rfl
  · exact runDirectives_count _ _ _ _ _

/-- When all seven conversions succeed, the variables after the call do not
depend on what they held before. -/
theorem sscanf_vars_of_success (buffer : List Char) (v v' : ScanVars)
    (h : 7 ≤ (sscanf buffer v).1) : (sscanf buffer v).2 = (sscanf buffer v').2 := by
  unfold sscanf at h ⊢
  split_ifs at h ⊢ with hb
  · simp at h
  · simp only [rowFormat, runDirectives] at h ⊢
    repeat' split at h
    all_goals first
      | (exfalso; revert h; norm_num; done)
      | skip
    all_goals simp [*]

/-- Pushing a sample acts on the core of the state only. -/
theorem core_pushSample_congr {D : Type} (ops : DoubleOps D) (st st' : LoopState D) (x : Int)
    (h : core st = core st') : core (pushSample ops st x) = core (pushSample ops st' x) := by
  simp only [core, Prod.mk.injEq] at h
  obtain ⟨h1, h2, h3, h4⟩ := h
  simp only [pushSample, h1]
  split_ifs
  · simp [core, flushWindow, h2, h3, h4]
  · simp [core, h1, h2, h3, h4]

/-- One turn of the loop: `line_idx` advances, and the core of the state is
left alone unless the row is in the share and parses, in which case its sample
is pushed. -/
theorem step_core {D : Type} (ops : DoubleOps D) (rank size : Int) (st : LoopState D)
    (buffer : List Char) (i : Nat) (h : st.line_idx = i) :
    (step ops rank size st buffer).line_idx = ((i + 1 : Nat) : Int) ∧
    core (step ops rank size st buffer) =
      if rowInShare rank size i && rowParses buffer then
        core (pushSample ops st (rowSample buffer))
      else core st := by
  unfold step
  by_cases hshare : Int.tmod st.line_idx size = rank
  · have hs : rowInShare rank size i = true := by simp [rowInShare, ← h, hshare]
    by_cases hparse : (sscanf buffer st.vars).1 < 7
    · have hp : rowParses buffer = false := by
        simp only [rowParses, decide_eq_false_iff_not, not_le]
        rw [sscanf_count buffer emptyVars st.vars]; exact hparse
      simp only [hshare, ne_eq, not_true_eq_false, if_false, hparse, if_true, hs, hp,
        Bool.and_false, Bool.false_eq_true]
      exact ⟨by simp [h], rfl⟩
    · have hge : 7 ≤ (sscanf buffer st.vars).1 := not_lt.mp hparse
      have hp : rowParses buffer = true := by
        simp only [rowParses, decide_eq_true_eq]
        rw [sscanf_count buffer emptyVars st.vars]; exact hge
      have hv := sscanf_vars_of_success buffer st.vars emptyVars hge
      simp only [hshare, ne_eq, not_true_eq_false, if_false, hparse, hs, hp, Bool.and_self,
        if_true]
      constructor
      · simp only [pushSample]
        split_ifs <;> simp [flushWindow, h]
      · have hc : core ({ st with vars := (sscanf buffer st.vars).2 } : LoopState D) = core st := rfl
        have := core_pushSample_congr ops _ _
          (wrap32 ((sscanf buffer st.vars).2.src_port + (sscanf buffer st.vars).2.dst_port)) hc
        rw [hv] at this ⊢
        exact this
  · have hs : rowInShare rank size i = false := by simp [rowInShare, ← h, hshare]
    simp only [hshare, ne_eq, not_false_eq_true, if_true, hs, Bool.false_and, Bool.false_eq_true,
      if_false]
    exact ⟨by simp [h], rfl⟩

/-- The loop over the rows pushes the samples of the rows of the share that
parse, in order, and does nothing else to the core of the state. -/
theorem foldl_step_core {D : Type} (ops : DoubleOps D) (rank size : Int) :
    ∀ (rows : List (List Char)) (first : Nat) (st st' : LoopState D),
      st.line_idx = first → core st = core st' →
      core (rows.foldl (step ops rank size) st) =
        core ((samplesFrom rank size first rows).foldl (pushSample ops) st') := by
  intro rows
  induction rows with
  | nil => intro first st st' _ hc; simpa [samplesFrom] using hc
  | cons b rows ih =>
    intro first st st' hl hc
    obtain ⟨hl', hcore⟩ := step_core ops rank size st b first hl
    simp only [List.foldl_cons]
    by_cases hcond : (rowInShare rank size first && rowParses b) = true
    · rw [if_pos hcond] at hcore
      have hs : samplesFrom rank size first (b :: rows) =
          rowSample b :: samplesFrom rank size (first + 1) rows := by
        simp [samplesFrom, List.enumFrom, List.filter_cons, hcond]
      rw [hs, List.foldl_cons]
      exact ih (first + 1) _ _ hl' (hcore.trans (core_pushSample_congr ops _ _ _ hc))
    · rw [if_neg hcond] at hcore
      have hs : samplesFrom rank size first (b :: rows) =
          samplesFrom rank size (first + 1) rows := by
        simp [samplesFrom, List.enumFrom, List.filter_cons, hcond]
      rw [hs]
      exact ih (first + 1) _ _ hl' (hcore.trans hc)

end Detection


namespace Detection

/-- Samples that do not fill the window are only stored. -/
theorem foldl_pushSample_short {D : Type} (ops : DoubleOps D) :
    ∀ (w : List Int) (st : LoopState D),
      st.packet_counts.length + w.length < WINDOW_SIZE →
      w.foldl (pushSample ops) st = { st with packet_counts := st.packet_counts ++ w } := by
  intro w
  induction w with
  | nil => intro st _; simp
  | cons x w ih =>
    intro st h
    simp only [List.length_cons] at h
    have hne : ¬ (st.packet_counts ++ [x]).length = WINDOW_SIZE := by
      simp only [List.length_append, List.length_singleton]; omega
    have hstep : pushSample ops st x = { st with packet_counts := st.packet_counts ++ [x] } := by
      simp only [pushSample, hne, if_false]
    rw [List.foldl_cons, hstep, ih]
    · simp
    · simp only [List.length_append, List.length_singleton]; omega

/-- A full window pushed into an empty one is evaluated once and the window
emptied. -/
theorem foldl_pushSample_full {D : Type} (ops : DoubleOps D) (w : List Int) (st : LoopState D)
    (hst : st.packet_counts = []) (hw : w.length = WINDOW_SIZE) :
    w.foldl (pushSample ops) st =
      { flushWindow ops { st with packet_counts := w } with packet_counts := [] } := by
  have hne : w ≠ [] := by
    intro h; rw [h] at hw; simp [WINDOW_SIZE] at hw
  obtain ⟨w', x, rfl⟩ : ∃ w' x, w = w' ++ [x] :=
    ⟨w.dropLast, w.getLast hne, (List.dropLast_append_getLast hne).symm⟩
  simp only [List.length_append, List.length_singleton] at hw
  rw [List.foldl_append, foldl_pushSample_short ops w' st (by rw [hst]; simp; omega)]
  simp only [List.foldl_cons, List.foldl_nil, pushSample, hst, List.nil_append,
    List.length_append, List.length_singleton, hw, if_true]

/-- The loop over `cusum_detect` computes the recurrence of the specification:
the flag is raised exactly when it was raised before or a reset occurs, and
the running sum is the one the recurrence leaves. -/
theorem cusumLoop_eq_spec {D : Type} (ops : DoubleOps D) (m : D) :
    ∀ (w : List Int) (flag : Int) (S : D), flag = 0 ∨ flag = 1 →
      cusumLoop ops m w flag S =
        (if flag = 1 ∨ (specCusumWindow ops m w S).1 = true then 1 else 0,
          (specCusumWindow ops m w S).2) := by
  intro w
  induction w with
  | nil =>
    intro flag S hf
    rcases hf with rfl | rfl <;> simp [cusumLoop, specCusumWindow]
  | cons x w ih =>
    intro flag S hf
    simp only [cusumLoop, specCusumWindow, cusum_detect]
    by_cases hreset :
        ops.gt (ops.fabs (ops.add S (ops.sub (ops.ofInt x) m))) (ops.mul m ops.tenth) = true
    · simp only [hreset, if_true, Bool.true_or, or_true]
      have h1 : Int.lor flag 1 = 1 := by rcases hf with rfl | rfl <;> rfl
      rw [h1, ih 1 ops.zero (Or.inr rfl)]
      simp
    · simp only [hreset, if_false, Bool.false_or, Bool.false_eq_true]
      have h0 : Int.lor flag 0 = flag := by rcases hf with rfl | rfl <;> rfl
      rw [h0, ih flag _ hf]

/-- The flags of the specification over two runs of windows: the second run
starts from the sum carried out of the first. -/
theorem specFlags_append {D : Type} (ops : DoubleOps D) :
    ∀ (ws : List (List Int)) (S : D), ∃ S' : D,
      ∀ rest : List (List Int),
        specFlags ops (ws ++ rest) S = specFlags ops ws S ++ specFlags ops rest S' := by
  intro ws
  induction ws with
  | nil => intro S; exact ⟨S, fun rest => by simp [specFlags]⟩
  | cons w ws ih =>
    intro S
    obtain ⟨S', hS'⟩ := ih (specCusumWindow ops (specMean ops w) w S).2
    exact ⟨S', fun rest => by simp [specFlags, hS']⟩

/-- The sum loop adds the samples in order. -/
theorem sumLoop_eq_foldl {D : Type} (ops : DoubleOps D) :
    ∀ (l : List Int) (sum : D),
      sumLoop ops l sum = l.foldl (fun acc x => ops.add acc (ops.ofInt x)) sum := by
  intro l
  induction l with
  | nil => intro sum; rfl
  | cons x l ih => intro sum; rw [sumLoop, ih, List.foldl_cons]

/-- The mean the code computes for a window is the mean of the specification. -/
theorem windowMean_eq_specMean {D : Type} (ops : DoubleOps D) (w : List Int) :
    windowMean ops w = specMean ops w := by
  rw [windowMean, specMean, sumLoop_eq_foldl]

/-- The core of the state after the evaluation of the window. -/
theorem core_flushWindow {D : Type} (ops : DoubleOps D) (st : LoopState D) :
    core (flushWindow ops st) =
      (st.packet_counts,
        (specCusumWindow ops (specMean ops st.packet_counts) st.packet_counts st.S).2,
        st.local_flows + 1,
        st.out.map (fun v => v.cusum_flag) ++ specFlags ops [st.packet_counts] st.S) := by
  simp only [core, flushWindow, cusumLoop_eq_spec ops _ _ 0 _ (Or.inl rfl), specFlags,
    windowMean_eq_specMean]
  simp

/-- Full windows pushed one after the other from an empty window: one verdict
each, with the flags of the specification, the sum being carried along. -/
theorem foldl_pushSample_windows {D : Type} (ops : DoubleOps D) :
    ∀ (ws : List (List Int)) (st : LoopState D),
      st.packet_counts = [] → (∀ w ∈ ws, w.length = WINDOW_SIZE) →
      ∃ S' : D,
        core (ws.flatten.foldl (pushSample ops) st) =
          ([], S', st.local_flows + (ws.length : Int),
            st.out.map (fun v => v.cusum_flag) ++ specFlags ops ws st.S) ∧
        ∀ rest : List (List Int),
          specFlags ops (ws ++ rest) st.S = specFlags ops ws st.S ++ specFlags ops rest S' := by
  intro ws
  induction ws with
  | nil =>
    intro st hst _
    exact ⟨st.S, by simp [core, hst, specFlags], fun rest => by simp [specFlags]⟩
  | cons w ws ih =>
    intro st hst hws
    have hw : w.length = WINDOW_SIZE := hws w (List.mem_cons_self _ _)
    have hws' : ∀ w' ∈ ws, w'.length = WINDOW_SIZE := fun w' h => hws w' (List.mem_cons_of_mem _ h)
    have hfull := foldl_pushSample_full ops w st hst hw
    have hcore := core_flushWindow ops ({ st with packet_counts := w } : LoopState D)
    obtain ⟨stF, hstF⟩ : ∃ s : LoopState D,
        s = { flushWindow ops { st with packet_counts := w } with packet_counts := [] } :=
      ⟨_, rfl⟩
    have hpc : stF.packet_counts = [] := by rw [hstF]
    have hS : stF.S = (specCusumWindow ops (specMean ops w) w st.S).2 := by
      rw [hstF]; exact congrArg (fun c => c.2.1) hcore
    have hl : stF.local_flows = st.local_flows + 1 := by
      rw [hstF]; exact congrArg (fun c => c.2.2.1) hcore
    have ho : stF.out.map (fun v => v.cusum_flag) =
        st.out.map (fun v => v.cusum_flag) ++ specFlags ops [w] st.S := by
      rw [hstF]; exact congrArg (fun c => c.2.2.2) hcore
    rw [← hstF] at hfull
    obtain ⟨S', hS', hrest⟩ := ih stF hpc hws'
    refine ⟨S', ?_, ?_⟩
    · rw [List.flatten_cons, List.foldl_append, hfull, hS', hl, ho, hS]
      simp only [List.length_cons, Nat.cast_add, Nat.cast_one, specFlags,
        List.append_assoc, List.singleton_append, List.nil_append, Prod.mk.injEq, true_and]
      constructor
      · ring
      · trivial
    · intro rest
      have := hrest rest
      rw [hS] at this
      rw [List.cons_append]
      simp only [specFlags, this, List.cons_append]

/-- The run of `process_csv` on a file whose pushed samples are the full
windows `ws` followed by the shorter rest `w`: one verdict per full window and
one more when `w` is not empty, with the flags of the specification. -/
theorem runFile_windows {D : Type} (ops : DoubleOps D) (csv : List Char) (rank size : Int)
    (ws : List (List Int)) (w : List Int)
    (hws : ∀ x ∈ ws, x.length = WINDOW_SIZE) (hw : w.length < WINDOW_SIZE)
    (hs : samples rank size csv = ws.flatten ++ w) :
    (runFile ops csv rank size).local_flows =
        ((ws.length + (if w = [] then 0 else 1) : Nat) : Int) ∧
    (runFile ops csv rank size).out.map (fun v => v.cusum_flag) =
        specFlags ops (ws ++ (if w = [] then [] else [w])) ops.zero := by
  have hsamples : samplesFrom rank size 0 ((readLines MAX_LINE csv).drop 1) = ws.flatten ++ w := by
    rw [← hs]; rfl
  have hloop := foldl_step_core ops rank size ((readLines MAX_LINE csv).drop 1) 0
    (initState ops) (initState ops) rfl rfl
  rw [hsamples, List.foldl_append] at hloop
  obtain ⟨S', hS', hrest⟩ := foldl_pushSample_windows ops ws (initState ops) rfl hws
  obtain ⟨stW, hstW⟩ : ∃ s : LoopState D, s = ws.flatten.foldl (pushSample ops) (initState ops) :=
    ⟨_, rfl⟩
  rw [← hstW] at hloop hS'
  have hWpc : stW.packet_counts = [] := congrArg (fun c => c.1) hS'
  rw [foldl_pushSample_short ops w stW (by rw [hWpc]; simpa using hw)] at hloop
  obtain ⟨stL, hstL⟩ : ∃ s : LoopState D,
      s = ((readLines MAX_LINE csv).drop 1).foldl (step ops rank size) (initState ops) := ⟨_, rfl⟩
  rw [← hstL] at hloop
  have hLpc : stL.packet_counts = w := by
    have := congrArg (fun c => c.1) hloop
    simpa [core, hWpc] using this
  have hLS : stL.S = S' := by
    have h1 := congrArg (fun c => c.2.1) hloop
    have h2 := congrArg (fun c => c.2.1) hS'
    simp only [core] at h1 h2
    rw [h1, h2]
  have hLl : stL.local_flows = (ws.length : Int) := by
    have h1 := congrArg (fun c => c.2.2.1) hloop
    have h2 := congrArg (fun c => c.2.2.1) hS'
    simp only [core] at h1 h2
    rw [h1, h2]; simp [initState]
  have hLo : stL.out.map (fun v => v.cusum_flag) = specFlags ops ws ops.zero := by
    have h1 := congrArg (fun c => c.2.2.2) hloop
    have h2 := congrArg (fun c => c.2.2.2) hS'
    simp only [core] at h1 h2
    rw [h1, h2]; simp [initState]
  have hrun : runFile ops csv rank size = finish ops stL := by rw [hstL]; rfl
  rw [hrun]
  by_cases hwe : w = []
  · have hfin : finish ops stL = stL := by simp [finish, hLpc, hwe]
    rw [hfin, hLl, hLo]
    simp [hwe]
  · have hpos : 0 < stL.packet_counts.length := by
      rw [hLpc]; exact List.length_pos.mpr hwe
    have hfin : finish ops stL = flushWindow ops stL := by simp [finish, hpos]
    have hcore := core_flushWindow ops stL
    rw [hfin]
    constructor
    · have := congrArg (fun c => c.2.2.1) hcore
      simp only [core] at this
      rw [this, hLl]; simp [hwe]
    · have := congrArg (fun c => c.2.2.2) hcore
      simp only [core] at this
      rw [this, hLo, hLpc, hLS, if_neg hwe]
      have := hrest [w]
      simpa [initState] using this.symm

/-- A list splits into full windows and a shorter rest. -/
theorem exists_windows {α : Type} (n : Nat) :
    ∀ (k r : Nat) (l : List α), r < n → l.length = n * k + r →
      ∃ (ws : List (List α)) (w : List α),
        (∀ x ∈ ws, x.length = n) ∧ ws.length = k ∧ w.length = r ∧ l = ws.flatten ++ w := by
  intro k
  induction k with
  | zero =>
    intro r l _ hl
    exact ⟨[], l, by simp, rfl, by simpa using hl, by simp⟩
  | succ k ih =>
    intro r l hr hl
    have hlen : (l.drop n).length = n * k + r := by
      rw [List.length_drop, hl]; rw [Nat.mul_succ]; omega
    obtain ⟨ws, w, hws, hk, hw, hsplit⟩ := ih r (l.drop n) hr hlen
    refine ⟨l.take n :: ws, w, ?_, by simp [hk], hw, ?_⟩
    · intro x hx
      rcases List.mem_cons.mp hx with rfl | hx
      · rw [List.length_take, hl, Nat.mul_succ]; omega
      · exact hws x hx
    · rw [List.flatten_cons, List.append_assoc, ← hsplit, List.take_append_drop]

end Detection


/-! ## Reading lines -/

/-- A call of `fgets` with room for at least one character takes a non-empty
line off a non-empty stream and loses no text. -/
theorem fgetsAux_spec : ∀ (k : Nat) (s : List Char), 0 < k → s ≠ [] →
    (fgetsAux k s).1 ++ (fgetsAux k s).2 = s ∧ (fgetsAux k s).1 ≠ [] := by
  intro k s
  induction s generalizing k with
  | nil => intro _ h; exact absurd rfl h
  | cons c cs ih =>
    intro hk _
    have hk0 : k ≠ 0 := by omega
    by_cases hc : c = '\n'
    · simp [fgetsAux, hk0, hc]
    · simp only [fgetsAux, hk0, if_false, hc, List.cons_append, ne_eq, reduceCtorEq,
        not_false_eq_true, and_true, List.cons.injEq, true_and]
      by_cases hk1 : k - 1 = 0
      · cases cs with
        | nil => simp [fgetsAux]
        | cons d ds => simp [fgetsAux, hk1]
      · cases cs with
        | nil => simp [fgetsAux]
        | cons d ds => exact (ih (k - 1) (by omega) (by simp)).1

/-- With as much fuel as the stream has characters, more fuel reads the same
lines: the loop has reached the end of the file. -/
theorem readLinesFuel_enough (n : Nat) (hn : 2 ≤ n) :
    ∀ (fuel : Nat) (s : List Char), s.length ≤ fuel →
      readLinesFuel n fuel s = readLinesFuel n s.length s := by
  intro fuel
  induction fuel using Nat.strong_induction_on with
  | _ fuel ih =>
    intro s hs
    cases s with
    | nil => cases fuel <;> simp [readLinesFuel, fgets]
    | cons c cs =>
      cases fuel with
      | zero => simp at hs
      | succ fuel =>
        obtain ⟨happ, hne⟩ := fgetsAux_spec (n - 1) (c :: cs) (by omega) (by simp)
        have hlen : ((fgetsAux (n - 1) (c :: cs)).2).length ≤ cs.length := by
          have h1 := congrArg List.length happ
          have h2 : 0 < ((fgetsAux (n - 1) (c :: cs)).1).length := List.length_pos.mpr hne
          simp only [List.length_append, List.length_cons] at h1
          omega
        simp only [readLinesFuel, fgets, reduceCtorEq, if_false, List.length_cons]
        rw [ih fuel (by omega) _ (by simp only [List.length_cons] at hs; omega),
          ih cs.length (by simp only [List.length_cons] at hs; omega) _ hlen]

/-- The lines read from a file make up the whole file. -/
theorem readLines_flatten (n : Nat) (hn : 2 ≤ n) : ∀ s : List Char, (readLines n s).flatten = s := by
  suffices h : ∀ (m : Nat) (s : List Char), s.length = m → (readLines n s).flatten = s from
    fun s => h s.length s rfl
  intro m
  induction m using Nat.strong_induction_on with
  | _ m ih =>
    intro s hlen
    cases s with
    | nil => simp [readLines, readLinesFuel]
    | cons c cs =>
      obtain ⟨happ, hne⟩ := fgetsAux_spec (n - 1) (c :: cs) (by omega) (by simp)
      have hlen2 : ((fgetsAux (n - 1) (c :: cs)).2).length ≤ cs.length := by
        have h1 := congrArg List.length happ
        have h2 : 0 < ((fgetsAux (n - 1) (c :: cs)).1).length := List.length_pos.mpr hne
        simp only [List.length_append, List.length_cons] at h1
        omega
      have hrec := ih _ (by rw [← hlen]; simp only [List.length_cons]; omega)
        (fgetsAux (n - 1) (c :: cs)).2 rfl
      simp only [readLines, List.length_cons, readLinesFuel, fgets, reduceCtorEq, if_false,
        List.flatten_cons]
      rw [readLinesFuel_enough n hn cs.length _ hlen2]
      rw [readLines] at hrec
      rw [hrec, happ]

/-- On a newline-terminated line that fits the buffer, `fgets` returns the
line. -/
theorem fgetsAux_line : ∀ (body rest : List Char) (k : Nat),
    '\n' ∉ body → body.length < k →
    fgetsAux k (body ++ '\n' :: rest) = (body ++ ['\n'], rest) := by
  intro body
  induction body with
  | nil =>
    intro rest k _ hk
    have hk0 : k ≠ 0 := by simp at hk; omega
    simp [fgetsAux, hk0]
  | cons c cs ih =>
    intro rest k hmem hk
    simp only [List.length_cons] at hk
    have hk0 : k ≠ 0 := by omega
    have hc : c ≠ '\n' := fun h => hmem (by simp [h])
    have hcs : '\n' ∉ cs := fun h => hmem (List.mem_cons_of_mem _ h)
    rw [List.cons_append, fgetsAux]
    simp only [hk0, if_false, hc]
    rw [ih rest (k - 1) hcs (by omega)]
    rfl

/-- A file made of newline-terminated lines that fit the buffer is read back
line by line. -/
theorem readLines_lines (n : Nat) (hn : 2 ≤ n) :
    ∀ lines : List (List Char),
      (∀ l ∈ lines, ∃ body, l = body ++ ['\n'] ∧ '\n' ∉ body ∧ body.length + 1 < n) →
      readLines n lines.flatten = lines := by
  intro lines
  induction lines with
  | nil => intro _; simp [readLines, readLinesFuel]
  | cons l lines ih =>
    intro h
    obtain ⟨body, rfl, hbody, hlen⟩ := h l (List.mem_cons_self _ _)
    have hrest := ih (fun l' hl' => h l' (List.mem_cons_of_mem _ hl'))
    have hfg : fgetsAux (n - 1) (body ++ '\n' :: lines.flatten) = (body ++ ['\n'], lines.flatten) :=
      fgetsAux_line body lines.flatten (n - 1) hbody (by omega)
    have hne : (body ++ ['\n']) ++ lines.flatten ≠ [] := by simp
    have hlen' : ((body ++ ['\n']) ++ lines.flatten).length =
        (body.length + lines.flatten.length) + 1 := by
      simp only [List.length_append, List.length_singleton]; omega
    rw [List.flatten_cons, readLines, hlen', readLinesFuel, fgets, if_neg hne]
    have happ : (body ++ ['\n']) ++ lines.flatten = body ++ '\n' :: lines.flatten := by simp
    rw [happ, hfg]
    simp only
    rw [readLinesFuel_enough n hn _ _ (by omega)]
    rw [readLines] at hrest
    rw [hrest]


/-- On a stretch without newline that fills the buffer, `fgets` returns the
stretch. -/
theorem fgetsAux_chunk : ∀ (chunk rest : List Char) (k : Nat),
    '\n' ∉ chunk → chunk.length = k → fgetsAux k (chunk ++ rest) = (chunk, rest) := by
  intro chunk
  induction chunk with
  | nil =>
    intro rest k _ hk
    simp only [List.length_nil] at hk
    subst hk
    cases rest <;> simp [fgetsAux]
  | cons c cs ih =>
    intro rest k hmem hk
    simp only [List.length_cons] at hk
    have hk0 : k ≠ 0 := by omega
    have hc : c ≠ '\n' := fun h => hmem (by simp [h])
    have hcs : '\n' ∉ cs := fun h => hmem (List.mem_cons_of_mem _ h)
    rw [List.cons_append, fgetsAux]
    simp only [hk0, if_false, hc]
    rw [ih rest (k - 1) hcs (by omega)]

/-- A file made of buffers, each a newline-terminated line that fits or a
stretch without newline that fills the buffer, is read back buffer by buffer. -/
theorem readLines_buffers (n : Nat) (hn : 2 ≤ n) :
    ∀ buffers : List (List Char),
      (∀ l ∈ buffers, (∃ body, l = body ++ ['\n'] ∧ '\n' ∉ body ∧ body.length + 1 < n) ∨
        ('\n' ∉ l ∧ l.length + 1 = n)) →
      readLines n buffers.flatten = buffers := by
  intro buffers
  induction buffers with
  | nil => intro _; simp [readLines, readLinesFuel]
  | cons l buffers ih =>
    intro h
    have hrest := ih (fun l' hl' => h l' (List.mem_cons_of_mem _ hl'))
    have hfg : fgetsAux (n - 1) (l ++ buffers.flatten) = (l, buffers.flatten) ∧ l ≠ [] := by
      rcases h l (List.mem_cons_self _ _) with ⟨body, rfl, hbody, hlen⟩ | ⟨hno, hlen⟩
      · refine ⟨?_, by simp⟩
        have := fgetsAux_line body buffers.flatten (n - 1) hbody (by omega)
        simpa using this
      · refine ⟨fgetsAux_chunk l buffers.flatten (n - 1) hno (by omega), ?_⟩
        intro hl; rw [hl] at hlen; simp at hlen; omega
    obtain ⟨hfg, hne⟩ := hfg
    have hne' : l ++ buffers.flatten ≠ [] := by simp [hne]
    have hpos : 0 < l.length := List.length_pos.mpr hne
    have hlen' : (l ++ buffers.flatten).length = (l.length - 1 + buffers.flatten.length) + 1 := by
      simp only [List.length_append]; omega
    rw [List.flatten_cons, readLines, hlen', readLinesFuel, fgets, if_neg hne', hfg]
    simp only
    rw [readLinesFuel_enough n hn _ _ (by omega)]
    rw [readLines] at hrest
    rw [hrest]

/-- A buffer that holds the whole line reads the same line as a larger one. -/
theorem fgetsAux_eq_of_fit : ∀ (s : List Char) (k k' : Nat),
    s.length ≤ k' → ((fgetsAux k' s).1).length ≤ k → fgetsAux k s = fgetsAux k' s := by
  intro s
  induction s with
  | nil => intro k k' _ _; simp [fgetsAux]
  | cons c cs ih =>
    intro k k' hk' hfit
    simp only [List.length_cons] at hk'
    have hk'0 : k' ≠ 0 := by omega
    by_cases hc : c = '\n'
    · have hk0 : k ≠ 0 := by
        intro h0; subst h0
        simp [fgetsAux, hk'0, hc] at hfit
      simp [fgetsAux, hk'0, hk0, hc]
    · have hfit' : ((fgetsAux (k' - 1) cs).1).length + 1 ≤ k := by
        simpa [fgetsAux, hk'0, hc] using hfit
      have hk0 : k ≠ 0 := by omega
      have := ih (k - 1) (k' - 1) (by omega) (by omega)
      simp only [fgetsAux, hk'0, hk0, if_false, hc, this]

/-- When every line of the file fits the buffer, the loop over `fgets` sees
the lines of the file. -/
theorem readLinesFuel_eq_of_fit (k k' : Nat) :
    ∀ (fuel : Nat) (s : List Char), s.length ≤ k' →
      (∀ l ∈ readLinesFuel (k' + 1) fuel s, l.length ≤ k) →
      readLinesFuel (k + 1) fuel s = readLinesFuel (k' + 1) fuel s := by
  intro fuel
  induction fuel with
  | zero => intro s _ _; rfl
  | succ fuel ih =>
    intro s hs hfit
    cases s with
    | nil => simp [readLinesFuel, fgets]
    | cons c cs =>
      have hk' : 0 < k' := by simp only [List.length_cons] at hs; omega
      obtain ⟨happ, _⟩ := fgetsAux_spec k' (c :: cs) hk' (by simp)
      have hrestlen : ((fgetsAux k' (c :: cs)).2).length ≤ k' := by
        have h1 := congrArg List.length happ
        simp only [List.length_append] at h1
        omega
      simp only [readLinesFuel, fgets, reduceCtorEq, if_false, Nat.add_sub_cancel,
        List.mem_cons, forall_eq_or_imp] at hfit ⊢
      obtain ⟨hhead, htail⟩ := hfit
      rw [fgetsAux_eq_of_fit (c :: cs) k k' hs hhead, ih _ hrestlen htail]

namespace Detection

/-- When every line of the file, header included, is at most `MAX_LINE - 1`
characters long, the rows `process_csv` reads are the rows of the file. -/
theorem dataRows_eq_fileRows (csv : List Char)
    (hfit : ∀ l ∈ fileLines csv, l.length < MAX_LINE) : dataRows csv = fileRows csv := by
  have h := readLinesFuel_eq_of_fit (MAX_LINE - 1) (csv.length + 1) csv.length csv (by omega)
    (fun l hl => by
      have := hfit l hl
      omega)
  simp only [dataRows, fileRows, fileLines, readLines]
  rw [show MAX_LINE = MAX_LINE - 1 + 1 from rfl, h]

/-- A file made of newline-terminated lines has these lines. -/
theorem fileLines_fileOf (header : List Char) (rows : List (List Char))
    (hlines : ∀ l ∈ header :: rows, ∃ body, l = body ++ ['\n'] ∧ '\n' ∉ body) :
    fileLines (fileOf header rows) = header :: rows := by
  have hle : ∀ (ls : List (List Char)) (l : List Char), l ∈ ls → l.length ≤ ls.flatten.length := by
    intro ls
    induction ls with
    | nil => intro l hl; exact absurd hl (List.not_mem_nil l)
    | cons a ls ih =>
      intro l hl
      rw [List.flatten_cons, List.length_append]
      rcases List.mem_cons.mp hl with rfl | hl
      · omega
      · have := ih l hl; omega
  refine readLines_lines _ (by omega) (header :: rows) ?_
  intro l hl
  obtain ⟨body, hb, hno⟩ := hlines l hl
  refine ⟨body, hb, hno, ?_⟩
  have := hle (header :: rows) l hl
  rw [hb] at this
  simp only [List.length_append, List.length_singleton] at this
  simp only [fileOf]
  omega

end Detection


/-! ## detection.c: the claims on `process_csv` -/

namespace Detection

/-- Evaluating the window keeps every row written so far and adds one whose
`entropy_flag` is 1. -/
theorem flushWindow_entropy {D : Type} (ops : DoubleOps D) (st : LoopState D)
    (h : ∀ v ∈ st.out, v.entropy_flag = 1) :
    ∀ v ∈ (flushWindow ops st).out, v.entropy_flag = 1 := by
  intro v hv
  simp only [flushWindow, List.mem_append, List.mem_singleton] at hv
  rcases hv with hv | rfl
  · exact h v hv
  · simp

theorem step_entropy {D : Type} (ops : DoubleOps D) (rank size : Int) (st : LoopState D)
    (buffer : List Char) (h : ∀ v ∈ st.out, v.entropy_flag = 1) :
    ∀ v ∈ (step ops rank size st buffer).out, v.entropy_flag = 1 := by
  simp only [step]
  split_ifs
  · exact h
  · exact h
  · simp only [pushSample]
    split_ifs
    · exact flushWindow_entropy ops _ h
    · exact h

theorem foldl_step_entropy {D : Type} (ops : DoubleOps D) (rank size : Int) :
    ∀ (rows : List (List Char)) (st : LoopState D), (∀ v ∈ st.out, v.entropy_flag = 1) →
      ∀ v ∈ (rows.foldl (step ops rank size) st).out, v.entropy_flag = 1 := by
  intro rows
  induction rows with
  | nil => intro st h; exact h
  | cons b rows ih => intro st h; exact ih _ (step_entropy ops rank size st b h)

end Detection

/-- C7: every verdict row `process_csv` writes, for a full window or for the
rest flushed at the end of the stream, has `entropy_flag` 1, for every input
file, rank, size and arithmetic, whatever its `cusum_flag`. -/
theorem entropy_flag_always_one {D : Type} (ops : DoubleOps D) (csv : Option (List Char))
    (outOk : Bool) (rank size total_flows : Int) (rows : List Detection.Verdict)
    (hrows : (Detection.process_csv ops csv outOk rank size total_flows).1 = some rows) :
    ∀ v ∈ rows, v.entropy_flag = 1 := by
  unfold Detection.process_csv at hrows
  cases csv with
  | none => simp at hrows
  | some text =>
    cases outOk with
    | false => simp at hrows
    | true =>
      simp only [Bool.true_eq_false, if_false, Option.some.injEq] at hrows
      rw [← hrows]
      unfold Detection.runFile Detection.finish
      have hloop := Detection.foldl_step_entropy ops rank size
        ((readLines Detection.MAX_LINE text).drop 1) (Detection.initState ops)
        (by simp [Detection.initState])
      split_ifs
      · exact Detection.flushWindow_entropy ops _ hloop
      · exact hloop

/-- Witness of C7: a file with two rows for one worker; one verdict row is
written, for the window of two samples, and its `entropy_flag` is 1. -/
theorem entropy_flag_always_one_witness :
    (Detection.process_csv ieeeOps
        (some "h\nf1,1.1.1.1,80,2.2.2.2,443,6,t1\nf2,3.3.3.3,80,4.4.4.4,443,6,t2\n".toList)
        true 0 1 0).1 =
      some (Detection.runFile ieeeOps
        "h\nf1,1.1.1.1,80,2.2.2.2,443,6,t1\nf2,3.3.3.3,80,4.4.4.4,443,6,t2\n".toList 0 1).out ∧
    (Detection.runFile ieeeOps
        "h\nf1,1.1.1.1,80,2.2.2.2,443,6,t1\nf2,3.3.3.3,80,4.4.4.4,443,6,t2\n".toList 0 1).out.map
        (fun v => (v.src_ip, v.dst_ip, v.entropy_flag)) =
      [("3.3.3.3".toList, "4.4.4.4".toList, 1)] ∧
    ∀ v ∈ (Detection.runFile ieeeOps
        "h\nf1,1.1.1.1,80,2.2.2.2,443,6,t1\nf2,3.3.3.3,80,4.4.4.4,443,6,t2\n".toList 0 1).out,
      v.entropy_flag = 1 :=
  ⟨rfl, by decide,
    entropy_flag_always_one ieeeOps
      (some "h\nf1,1.1.1.1,80,2.2.2.2,443,6,t1\nf2,3.3.3.3,80,4.4.4.4,443,6,t2\n".toList)
      true 0 1 0 _ rfl⟩


/-! ## detection.c: example files -/

namespace Detection

theorem isLine_spec (n : Nat) (l : List Char) (h : isLine n l = true) :
    ∃ body, l = body ++ ['\n'] ∧ '\n' ∉ body ∧ body.length + 1 < n := by
  simp only [isLine, Bool.and_eq_true, beq_iff_eq, Bool.not_eq_true', decide_eq_true_eq] at h
  obtain ⟨⟨hlast, hno⟩, hlen⟩ := h
  have hne : l ≠ [] := by
    intro hl; rw [hl] at hlast; simp at hlast
  have hl : l = l.dropLast ++ [l.getLast hne] := (List.dropLast_append_getLast hne).symm
  have hg : l.getLast hne = '\n' := by
    rw [List.getLast?_eq_getLast _ hne] at hlast
    exact Option.some.inj hlast
  refine ⟨l.dropLast, by rw [← hg]; exact hl, ?_, ?_⟩
  · intro hmem
    have : l.dropLast.contains '\n' = true := by simpa using hmem
    rw [this] at hno; exact absurd hno (by simp)
  · rw [List.length_dropLast]
    have : 0 < l.length := List.length_pos.mpr hne
    omega

/-- For a single worker, when every row parses, the share is all the rows. -/
theorem shareOf_all (rows : List (List Char)) (hparse : ∀ l ∈ rows, rowParses l = true) :
    shareOf 0 1 rows = rows := by
  rw [shareOf, List.filter_eq_self.mpr, List.enum_map_snd]
  intro p hp
  have := hparse p.2 (List.snd_mem_of_mem_enum hp)
  simp [rowInShare, this]

/-- A file made of lines is read back by `process_csv` as these lines; for a
single worker, when every row parses, the samples are those of the rows. -/
theorem samples_fileOf (header : List Char) (rows : List (List Char))
    (hlines : ∀ l ∈ header :: rows, isLine MAX_LINE l = true)
    (hparse : ∀ l ∈ rows, rowParses l = true) :
    shareRows 0 1 (fileOf header rows) = rows ∧
    samples 0 1 (fileOf header rows) = rows.map rowSample := by
  have hread : readLines MAX_LINE (fileOf header rows) = header :: rows :=
    readLines_lines MAX_LINE (by decide) (header :: rows)
      (fun l hl => isLine_spec MAX_LINE l (hlines l hl))
  have hshare : shareRows 0 1 (fileOf header rows) = rows := by
    have : shareRows 0 1 (fileOf header rows) = shareOf 0 1 (dataRows (fileOf header rows)) := rfl
    rw [this, dataRows, hread, List.drop_succ_cons, List.drop_zero, shareOf_all rows hparse]
  exact ⟨hshare, by rw [samples, hshare]⟩

/-- The lines of `file1500` and its share for a single worker. -/
theorem file1500_rows :
    fileLines file1500 = exHeader :: List.replicate 1500 row1000 ∧
    shareOf 0 1 (fileRows file1500) = List.replicate 1500 row1000 := by
  have hlines : fileLines file1500 = exHeader :: List.replicate 1500 row1000 := by
    refine fileLines_fileOf exHeader (List.replicate 1500 row1000) ?_
    intro l hl
    have hline : isLine MAX_LINE l = true := by
      rcases List.mem_cons.mp hl with rfl | hl
      · decide
      · rw [List.eq_of_mem_replicate hl]; decide
    obtain ⟨body, hb, hno, _⟩ := isLine_spec MAX_LINE l hline
    exact ⟨body, hb, hno⟩
  refine ⟨hlines, ?_⟩
  rw [fileRows, hlines, List.drop_succ_cons, List.drop_zero]
  exact shareOf_all _ (fun l hl => by rw [List.eq_of_mem_replicate hl]; decide)

theorem longRowHead_spec : '\n' ∉ longRowHead ∧ longRowHead.length + 1 = MAX_LINE := by
  constructor
  · simp only [longRowHead, List.mem_append, List.mem_replicate, not_or]
    exact ⟨by decide, by simp⟩
  · rw [longRowHead, List.length_append, List.length_replicate]; rfl

/-- The rows of `fileLong`: as lines of the file, 1000 rows; as `process_csv`
reads them, 1001 buffers, the long row being cut after 8191 characters. -/
theorem fileLong_rows :
    fileRows fileLong = List.replicate 999 row1000 ++ [longRow] ∧
    dataRows fileLong = List.replicate 999 row1000 ++ [longRowHead, longRowTail] := by
  constructor
  · have hlines : fileLines fileLong = exHeader :: (List.replicate 999 row1000 ++ [longRow]) := by
      refine fileLines_fileOf exHeader _ ?_
      intro l hl
      simp only [List.mem_cons, List.mem_append, List.mem_replicate, List.mem_singleton,
        List.not_mem_nil, or_false] at hl
      rcases hl with rfl | ⟨_, rfl⟩ | rfl
      · obtain ⟨body, hb, hno, _⟩ := isLine_spec MAX_LINE exHeader (by decide)
        exact ⟨body, hb, hno⟩
      · obtain ⟨body, hb, hno, _⟩ := isLine_spec MAX_LINE row1000 (by decide)
        exact ⟨body, hb, hno⟩
      · obtain ⟨body, hb, hno, _⟩ := isLine_spec MAX_LINE longRowTail (by decide)
        refine ⟨longRowHead ++ body, by rw [longRow, hb, List.append_assoc], ?_⟩
        intro hmem
        rcases List.mem_append.mp hmem with h | h
        · exact longRowHead_spec.1 h
        · exact hno h
    rw [fileRows, hlines, List.drop_succ_cons, List.drop_zero]
  · have hflat : fileLong =
        (exHeader :: (List.replicate 999 row1000 ++ [longRowHead, longRowTail])).flatten := by
      simp only [fileLong, fileOf, longRow, List.flatten_cons, List.flatten_append,
        List.flatten_nil, List.append_nil, List.append_assoc]
    have hread := readLines_buffers MAX_LINE (by decide)
      (exHeader :: (List.replicate 999 row1000 ++ [longRowHead, longRowTail])) (by
        intro l hl
        simp only [List.mem_cons, List.mem_append, List.mem_replicate, List.mem_singleton,
          List.not_mem_nil, or_false] at hl
        rcases hl with rfl | ⟨_, rfl⟩ | rfl | rfl
        · exact Or.inl (isLine_spec MAX_LINE exHeader (by decide))
        · exact Or.inl (isLine_spec MAX_LINE row1000 (by decide))
        · exact Or.inr longRowHead_spec
        · exact Or.inl (isLine_spec MAX_LINE longRowTail (by decide)))
    rw [dataRows, hflat, hread, List.drop_succ_cons, List.drop_zero]

/-- The count of verdicts in terms of the buffers `fgets` returns: when the
buffers of the share that parse at least 7 fields number
`WINDOW_SIZE * k + r`, `k` verdict rows are written, plus one when `r > 0`. -/
theorem flush_cadence_of_buffers {D : Type} (ops : DoubleOps D) (csv : List Char)
    (rank size total_flows : Int) (k r : Nat) (hr : r < WINDOW_SIZE)
    (hcount : (shareRows rank size csv).length = WINDOW_SIZE * k + r) :
    (process_csv ops (some csv) true rank size total_flows).1.map List.length =
        some (k + if 0 < r then 1 else 0) ∧
    (process_csv ops (some csv) true rank size total_flows).2 =
        ((k + if 0 < r then 1 else 0 : Nat) : Int) := by
  have hlen : (samples rank size csv).length = WINDOW_SIZE * k + r := by
    rw [samples, List.length_map, hcount]
  obtain ⟨ws, w, hws, hk, hw, hsplit⟩ :=
    exists_windows WINDOW_SIZE k r (samples rank size csv) hr hlen
  obtain ⟨hflows, hflags⟩ :=
    runFile_windows ops csv rank size ws w hws (by rw [hw]; exact hr) hsplit
  have hwe : (w = []) ↔ r = 0 := by
    rw [← hw]; exact List.length_eq_zero.symm
  have hcnt : (ws.length + if w = [] then 0 else 1) = k + if 0 < r then 1 else 0 := by
    rw [hk]
    by_cases h0 : r = 0
    · simp [hwe.mpr h0, h0]
    · have : ¬ w = [] := fun h => h0 (hwe.mp h)
      simp [this, Nat.pos_of_ne_zero h0]
  have hout : (runFile ops csv rank size).out.length = k + if 0 < r then 1 else 0 := by
    have := congrArg List.length hflags
    rw [List.length_map] at this
    rw [this, ← hcnt]
    have hspec : ∀ (l : List (List Int)) (S : D), (specFlags ops l S).length = l.length := by
      intro l
      induction l with
      | nil => intro S; rfl
      | cons a l ih => intro S; simp [specFlags, ih]
    rw [hspec]
    by_cases h : w = [] <;> simp [h]
  simp only [process_csv, Bool.true_eq_false, if_false, Option.map_some', hout]
  rw [hflows, hcnt]
  exact ⟨trivial, rfl⟩

end Detection

/-- C5, as amended: for a cleaned file whose lines, header included, are at
most `MAX_LINE - 1 = 8191` characters long (newline included), when the rows
of the file in the share of the worker (`row_index % size == rank`) that
parse at least 7 fields number `WINDOW_SIZE * k + r` with `r < WINDOW_SIZE`,
`process_csv` writes `k` verdict rows, plus one when `r > 0`, and stores that
number in `*total_flows`; the rows that fail to parse are not in the count. -/
theorem window_flush_cadence {D : Type} (ops : DoubleOps D) (csv : List Char)
    (rank size total_flows : Int) (k r : Nat) (_hsize : 0 < size)
    (hr : r < Detection.WINDOW_SIZE)
    (hfit : ∀ l ∈ Detection.fileLines csv, l.length < Detection.MAX_LINE)
    (hcount : (Detection.shareOf rank size (Detection.fileRows csv)).length =
      Detection.WINDOW_SIZE * k + r) :
    (Detection.process_csv ops (some csv) true rank size total_flows).1.map List.length =
        some (k + if 0 < r then 1 else 0) ∧
    (Detection.process_csv ops (some csv) true rank size total_flows).2 =
        ((k + if 0 < r then 1 else 0 : Nat) : Int) := by
  have hshare : Detection.shareRows rank size csv =
      Detection.shareOf rank size (Detection.dataRows csv) := rfl
  rw [← Detection.dataRows_eq_fileRows csv hfit, ← hshare] at hcount
  exact Detection.flush_cadence_of_buffers ops csv rank size total_flows k r hr hcount

/-- Witness of C5: 1500 rows that all parse, one worker: the lines fit the
buffer, the share holds `WINDOW_SIZE * 1 + 500` rows, 2 verdict rows are
written and `*total_flows` is 2. -/
theorem window_flush_cadence_witness :
    (0 : Int) < 1 ∧ 500 < Detection.WINDOW_SIZE ∧
    (∀ l ∈ Detection.fileLines Detection.file1500, l.length < Detection.MAX_LINE) ∧
    (Detection.shareOf 0 1 (Detection.fileRows Detection.file1500)).length =
      Detection.WINDOW_SIZE * 1 + 500 ∧
    (Detection.process_csv ieeeOps (some Detection.file1500) true 0 1 0).1.map List.length =
        some 2 ∧
    (Detection.process_csv ieeeOps (some Detection.file1500) true 0 1 0).2 = 2 :=
  have hfit : ∀ l ∈ Detection.fileLines Detection.file1500, l.length < Detection.MAX_LINE := by
    intro l hl
    rw [Detection.file1500_rows.1] at hl
    rcases List.mem_cons.mp hl with rfl | hl
    · decide
    · rw [List.eq_of_mem_replicate hl]; decide
  have hcount : (Detection.shareOf 0 1 (Detection.fileRows Detection.file1500)).length =
      Detection.WINDOW_SIZE * 1 + 500 := by
    rw [Detection.file1500_rows.2, List.length_replicate]; rfl
  ⟨by decide, by decide, hfit, hcount,
    window_flush_cadence ieeeOps Detection.file1500 0 1 0 1 500 (by decide) (by decide)
      hfit hcount⟩

/-- C5 as stated fails on `fileLong`, one worker: the file has 1000 data
rows, all in the share and all parsing at least 7 fields
(`WINDOW_SIZE * 1 + 0`), and `process_csv` writes 2 verdict rows and stores 2
in `*total_flows`, not 1: the row of 8222 characters is read by `fgets` as
two buffers of 8191 and 31 characters, and both parse. -/
theorem window_flush_cadence_long_row :
    Detection.fileRows Detection.fileLong =
      List.replicate 999 Detection.row1000 ++ [Detection.longRow] ∧
    (∀ row ∈ Detection.fileRows Detection.fileLong, Detection.rowParses row = true) ∧
    (Detection.shareOf 0 1 (Detection.fileRows Detection.fileLong)).length =
      Detection.WINDOW_SIZE * 1 + 0 ∧
    (Detection.process_csv ieeeOps (some Detection.fileLong) true 0 1 0).1.map List.length =
      some 2 ∧
    (Detection.process_csv ieeeOps (some Detection.fileLong) true 0 1 0).2 = 2 ∧
    (Detection.process_csv ieeeOps (some Detection.fileLong) true 0 1 0).1.map List.length ≠
      some (1 + if 0 < 0 then 1 else 0) := by
  have hparse : ∀ row ∈ Detection.fileRows Detection.fileLong,
      Detection.rowParses row = true := by
    intro row hrow
    rw [Detection.fileLong_rows.1] at hrow
    simp only [List.mem_append, List.mem_replicate, List.mem_singleton] at hrow
    rcases hrow with ⟨_, rfl⟩ | rfl <;> decide
  have hbuf : (Detection.shareRows 0 1 Detection.fileLong).length =
      Detection.WINDOW_SIZE * 1 + 1 := by
    have h : Detection.shareRows 0 1 Detection.fileLong =
        Detection.shareOf 0 1 (Detection.dataRows Detection.fileLong) := rfl
    rw [h, Detection.fileLong_rows.2, Detection.shareOf_all]
    · simp only [List.length_append, List.length_replicate, List.length_cons, List.length_nil]
      rfl
    · intro l hl
      simp only [List.mem_append, List.mem_replicate, List.mem_cons, List.mem_singleton,
        List.not_mem_nil, or_false] at hl
      rcases hl with ⟨_, rfl⟩ | rfl | rfl <;> decide
  have hrun := Detection.flush_cadence_of_buffers ieeeOps Detection.fileLong 0 1 0 1 1
    (by decide) hbuf
  refine ⟨Detection.fileLong_rows.1, hparse, ?_, hrun.1, hrun.2, ?_⟩
  · rw [Detection.shareOf_all _ hparse, Detection.fileLong_rows.1]
    simp only [List.length_append, List.length_replicate, List.length_cons, List.length_nil]
    rfl
  · rw [hrun.1]; decide


/-! ## Rounding of integers -/

namespace Dbl

theorem log2Fuel_le : ∀ (fuel n k : Nat), n < 2 ^ (k + 1) → log2Fuel fuel n ≤ k := by
  intro fuel
  induction fuel with
  | zero => intro n k _; simp [log2Fuel]
  | succ fuel ih =>
    intro n k hn
    rw [log2Fuel]
    split_ifs with h2
    · exact Nat.zero_le _
    · cases k with
      | zero => simp at hn; omega
      | succ k =>
        have : n / 2 < 2 ^ (k + 1) := by
          rw [Nat.div_lt_iff_lt_mul (by decide)]
          rw [pow_succ] at hn; exact hn
        have := ih (n / 2) k this
        omega

theorem two_pow_log2Fuel_le : ∀ (fuel n : Nat), 1 ≤ n → 2 ^ log2Fuel fuel n ≤ n := by
  intro fuel
  induction fuel with
  | zero => intro n hn; simpa [log2Fuel] using hn
  | succ fuel ih =>
    intro n hn
    rw [log2Fuel]
    split_ifs with h2
    · simpa using hn
    · have h := ih (n / 2) (by omega)
      rw [pow_succ]
      have := Nat.div_mul_le_self n 2
      omega

/-- An integer of magnitude below `2 ^ 53` is a double: rounding leaves it as
it is. -/
theorem roundRat_int (n : Int) (h : n.natAbs < 2 ^ 53) : roundRat (n : Rat) = fin (n : Rat) := by
  by_cases hn : n = 0
  · subst hn; simp [roundRat]
  have hq0 : (n : Rat) ≠ 0 := by exact_mod_cast hn
  have ha1 : 1 ≤ n.natAbs := Int.natAbs_pos.mpr hn
  have hlog1 : log2 1 = 0 := by decide
  have hle : log2 n.natAbs ≤ 52 := log2Fuel_le _ _ 52 h
  have hpow : 2 ^ log2 n.natAbs ≤ n.natAbs := two_pow_log2Fuel_le _ _ ha1
  have hil : ilog2 n.natAbs 1 = (log2 n.natAbs : Int) := by
    simp only [ilog2, hlog1, Nat.cast_zero, sub_zero, Int.toNat_ofNat, one_mul]
    rw [if_pos (by omega), if_pos hpow]
  have hs : (0 : Int) ≤ 52 - (log2 n.natAbs : Int) := by omega
  have hst : (52 - (log2 n.natAbs : Int)).toNat = 52 - log2 n.natAbs := by omega
  have hmax : max (log2 n.natAbs : Int) (-1022) = (log2 n.natAbs : Int) := by
    apply max_eq_left; omega
  have hmag : mkRat ((n.natAbs * 2 ^ (52 - log2 n.natAbs) : Nat) : Int)
      (2 ^ (52 - log2 n.natAbs)) = (n.natAbs : Rat) := by
    rw [Rat.mkRat_eq_div]
    push_cast
    field_simp
    simp [Nat.cast_natAbs]
  unfold roundRat
  rw [if_neg hq0]
  simp only [Rat.num_intCast, Rat.den_intCast, hil, hmax, hs, if_true, hst, Nat.div_one,
    Nat.mod_one, Nat.mul_zero, Nat.lt_irrefl, false_or, not_lt_of_le hs, false_and, if_false]
  have hcond : ¬ (1 < 0 ∨ 0 = 1 ∧ n.natAbs * 2 ^ (52 - log2 n.natAbs) % 2 = 1) := by
    rintro (h1 | ⟨h1, _⟩) <;> omega
  rw [if_neg hcond, hmag]
  congr 1
  split_ifs with hneg
  · have : n < 0 := by exact_mod_cast hneg
    rw [Nat.cast_natAbs, abs_of_neg this]
    push_cast; ring
  · have : 0 ≤ n := by
      have : ¬ n < 0 := fun hlt => hneg (by exact_mod_cast hlt)
      omega
    rw [Nat.cast_natAbs, abs_of_nonneg this]

end Dbl

/-! ## detection.c: the CUSUM recurrence on the example files -/

namespace Detection

/-- In double arithmetic the sum of non-negative samples is exact as long as
it stays below `2 ^ 53`. -/
theorem foldl_add_ieee : ∀ (l : List Int) (s : Int), 0 ≤ s → (∀ x ∈ l, 0 ≤ x) →
    s + l.sum < 2 ^ 53 →
    l.foldl (fun acc x => ieeeOps.add acc (ieeeOps.ofInt x)) (Dbl.fin (s : Rat)) =
      Dbl.fin ((s + l.sum : Int) : Rat) := by
  intro l
  induction l with
  | nil => intro s _ _ _; simp
  | cons x l ih =>
    intro s hs hl hsum
    have hx : 0 ≤ x := hl x (List.mem_cons_self _ _)
    have hl' : ∀ y ∈ l, 0 ≤ y := fun y hy => hl y (List.mem_cons_of_mem _ hy)
    have hlsum : 0 ≤ l.sum := List.sum_nonneg hl'
    rw [List.sum_cons] at hsum
    have h1 : Dbl.roundRat (x : Rat) = Dbl.fin (x : Rat) := Dbl.roundRat_int x (by omega)
    have h2 : Dbl.roundRat ((s + x : Int) : Rat) = Dbl.fin ((s + x : Int) : Rat) :=
      Dbl.roundRat_int (s + x) (by omega)
    have hstep : ieeeOps.add (Dbl.fin (s : Rat)) (ieeeOps.ofInt x) =
        Dbl.fin ((s + x : Int) : Rat) := by
      show Dbl.add (Dbl.fin (s : Rat)) (Dbl.roundRat (x : Rat)) = _
      rw [h1, Dbl.add, ← Int.cast_add, h2]
    rw [List.foldl_cons, hstep, ih (s + x) (by omega) hl' (by omega), List.sum_cons]
    congr 2; ring

/-- The recurrence over two runs of samples. -/
theorem specCusumWindow_append {D : Type} (ops : DoubleOps D) (m : D) :
    ∀ (l1 l2 : List Int) (S : D),
      specCusumWindow ops m (l1 ++ l2) S =
        ((specCusumWindow ops m l1 S).1 ||
            (specCusumWindow ops m l2 (specCusumWindow ops m l1 S).2).1,
          (specCusumWindow ops m l2 (specCusumWindow ops m l1 S).2).2) := by
  intro l1
  induction l1 with
  | nil => intro l2 S; simp [specCusumWindow]
  | cons x l1 ih =>
    intro l2 S
    rw [List.cons_append]
    simp only [specCusumWindow]
    rw [ih]
    simp only [Bool.or_assoc]

/-- In double arithmetic, samples of 1000 in a window of mean 1000 leave a
running sum of 0 at 0, without a reset. -/
theorem specCusumWindow_replicate_ieee :
    ∀ n : Nat, specCusumWindow ieeeOps (Dbl.fin 1000) (List.replicate n 1000) (Dbl.fin 0) =
      (false, Dbl.fin 0) := by
  have hstep : ieeeOps.add (Dbl.fin 0) (ieeeOps.sub (ieeeOps.ofInt 1000) (Dbl.fin 1000)) =
      Dbl.fin 0 := by with_unfolding_all decide
  have hgt : ieeeOps.gt (ieeeOps.fabs (Dbl.fin 0)) (ieeeOps.mul (Dbl.fin 1000) ieeeOps.tenth) =
      false := by with_unfolding_all decide
  intro n
  induction n with
  | zero => simp [specCusumWindow]
  | succ n ih =>
    simp only [List.replicate_succ, specCusumWindow, hstep, hgt, Bool.false_eq_true, if_false,
      Bool.false_or, ih]

theorem rowSample_rows :
    rowSample row1200 = 1200 ∧ rowSample row940 = 940 ∧ rowSample row980 = 980 ∧
    rowSample row1000 = 1000 ∧ rowSample row95 = 95 ∧ rowSample row105 = 105 := by
  refine ⟨by decide, by decide, by decide, by decide, by decide, by decide⟩

/-- The samples of `fileA`: the window `windowA`, then 95 and 105. -/
theorem samples_fileA : samples 0 1 fileA = windowA ++ [95, 105] := by
  obtain ⟨h1, h2, h3, h4, h5, h6⟩ := rowSample_rows
  have hmem : ∀ l ∈ rowsWindowA ++ [row95, row105],
      l = row1200 ∨ l = row940 ∨ l = row980 ∨ l = row1000 ∨ l = row95 ∨ l = row105 := by
    intro l hl
    simp only [rowsWindowA, List.mem_append, List.mem_cons, List.mem_singleton,
      List.mem_replicate, List.not_mem_nil, or_false] at hl
    tauto
  have := (samples_fileOf exHeader (rowsWindowA ++ [row95, row105]) ?_ ?_).2
  · rw [fileA, this]
    simp only [rowsWindowA, windowA, List.map_append, List.map_cons, List.map_nil,
      List.map_replicate, h1, h2, h3, h4, h5, h6]
  · intro l hl
    rcases List.mem_cons.mp hl with rfl | hl
    · decide
    · rcases hmem l hl with rfl | rfl | rfl | rfl | rfl | rfl <;> decide
  · intro l hl
    rcases hmem l hl with rfl | rfl | rfl | rfl | rfl | rfl <;> decide

/-- The samples of `fileB`: 95 and 105. -/
theorem samples_fileB : samples 0 1 fileB = [95, 105] := by
  have := (samples_fileOf exHeader [row95, row105] ?_ ?_).2
  · rw [fileB, this]
    simp only [List.map_cons, List.map_nil, rowSample_rows.2.2.2.2.1, rowSample_rows.2.2.2.2.2]
  · intro l hl
    simp only [List.mem_cons, List.mem_singleton, List.not_mem_nil, or_false] at hl
    rcases hl with rfl | rfl | rfl <;> decide
  · intro l hl
    simp only [List.mem_cons, List.mem_singleton, List.not_mem_nil, or_false] at hl
    rcases hl with rfl | rfl <;> decide

set_option maxRecDepth 20000 in
/-- In double arithmetic the mean of `windowA` is 1000 and the mean of the
window 95, 105 is 100. -/
theorem specMean_examples :
    specMean ieeeOps windowA = Dbl.fin 1000 ∧ specMean ieeeOps [95, 105] = Dbl.fin 100 := by
  constructor
  · have hsum : windowA.sum = 1000000 := by
      simp only [windowA, List.sum_append, List.sum_cons, List.sum_nil, List.sum_replicate,
        nsmul_eq_mul]
      norm_num
    have hlen : windowA.length = 1000 := by
      simp only [windowA, List.length_append, List.length_cons, List.length_nil,
        List.length_replicate]
    have hfold := foldl_add_ieee windowA 0 (le_refl 0)
      (by
        intro x hx
        simp only [windowA, List.mem_append, List.mem_replicate, List.mem_cons,
          List.mem_singleton, List.not_mem_nil, or_false] at hx
        rcases hx with ⟨_, rfl⟩ | rfl | rfl | rfl | rfl | rfl <;> decide)
      (by rw [hsum]; decide)
    rw [hsum] at hfold
    have hzero : ieeeOps.zero = Dbl.fin ((0 : Int) : Rat) := by
      show Dbl.fin 0 = _
      simp
    rw [specMean, hzero, hfold, hlen]
    with_unfolding_all decide
  · with_unfolding_all decide

set_option maxRecDepth 20000 in
/-- Rounding shows in the flags: in double arithmetic the window 3, 4, 3 is
flagged at its first sample, the mean `10 / 3` and the threshold being
rounded, where exact arithmetic would meet `1 / 3 > 1 / 3` and not flag it. -/
theorem specFlags_rounding : specFlags ieeeOps [[3, 4, 3]] ieeeOps.zero = [1] := by
  with_unfolding_all decide

set_option maxRecDepth 20000 in
/-- The flags of the specification on the windows of `fileA` and of `fileB`
in double arithmetic. -/
theorem specFlags_examples :
    specFlags ieeeOps [windowA, [95, 105]] ieeeOps.zero = [1, 1] ∧
    specFlags ieeeOps [[95, 105]] ieeeOps.zero = [0] := by
  have htail : specCusumWindow ieeeOps (Dbl.fin 1000) [1200, 940, 940, 940, 980] (Dbl.fin 0) =
      (true, Dbl.fin (-80)) := by with_unfolding_all decide
  have hA : specCusumWindow ieeeOps (Dbl.fin 1000) windowA (Dbl.fin 0) = (true, Dbl.fin (-80)) := by
    rw [windowA, specCusumWindow_append, specCusumWindow_replicate_ieee, htail]
    rfl
  have hB1 : specCusumWindow ieeeOps (Dbl.fin 100) [95, 105] (Dbl.fin (-80)) =
      (true, Dbl.fin 5) := by with_unfolding_all decide
  have hB0 : specCusumWindow ieeeOps (Dbl.fin 100) [95, 105] (Dbl.fin 0) =
      (false, Dbl.fin 0) := by with_unfolding_all decide
  have hz : ieeeOps.zero = Dbl.fin 0 := rfl
  constructor
  · simp only [specFlags, specMean_examples.1, specMean_examples.2, hz, hA, hB1, if_true]
  · simp only [specFlags, specMean_examples.2, hz, hB0, Bool.false_eq_true, if_false]

end Detection


/-- C10: the `cusum_flag` column `process_csv` writes is the one of the CUSUM
recurrence of the specification run over the windows in order, the running
sum `S` being 0 before the first window and carried from the last sample of a
window to the first sample of the next: when the samples pushed by the worker
are the full windows `ws` followed by a shorter rest `w`, the flags written
are `specFlags` of these windows from `S = 0`, where each window has for `m`
the mean of its samples (`specMean`), every sample updates `S` to
`S + (x - m)` and resets it when `|S| > 0.1 m`, and the flag tells whether a
reset occurred.  The flag of a window is not a function of its samples: in
the double arithmetic of C, `fileA` holds the window `windowA` (mean 1000,
which leaves `S = -80`) and then the samples 95 and 105, `fileB` holds the
samples 95 and 105 alone (mean 100), and the window 95, 105 gets `cusum_flag`
1 in `fileA` and 0 in `fileB`. -/
theorem cusum_state_carried_across_windows :
    (∀ (D : Type) (ops : DoubleOps D) (csv : List Char) (rank size total_flows : Int)
        (ws : List (List Int)) (w : List Int),
        0 < size →
        (∀ x ∈ ws, x.length = Detection.WINDOW_SIZE) →
        w.length < Detection.WINDOW_SIZE →
        Detection.samples rank size csv = ws.flatten ++ w →
        (Detection.process_csv ops (some csv) true rank size total_flows).1.map
            (List.map (fun v => v.cusum_flag)) =
          some (Detection.specFlags ops (ws ++ if w = [] then [] else [w]) ops.zero)) ∧
    (Detection.windowA.length = Detection.WINDOW_SIZE ∧
      Detection.samples 0 1 Detection.fileA = Detection.windowA ++ [95, 105] ∧
      Detection.samples 0 1 Detection.fileB = [95, 105] ∧
      Detection.specMean ieeeOps Detection.windowA = Dbl.fin 1000 ∧
      Detection.specMean ieeeOps [95, 105] = Dbl.fin 100 ∧
      (Detection.process_csv ieeeOps (some Detection.fileA) true 0 1 0).1.map
          (List.map (fun v => v.cusum_flag)) = some [1, 1] ∧
      (Detection.process_csv ieeeOps (some Detection.fileB) true 0 1 0).1.map
          (List.map (fun v => v.cusum_flag)) = some [0]) := by
  have hgen : ∀ (D : Type) (ops : DoubleOps D) (csv : List Char) (rank size total_flows : Int)
      (ws : List (List Int)) (w : List Int),
      (∀ x ∈ ws, x.length = Detection.WINDOW_SIZE) →
      w.length < Detection.WINDOW_SIZE →
      Detection.samples rank size csv = ws.flatten ++ w →
      (Detection.process_csv ops (some csv) true rank size total_flows).1.map
          (List.map (fun v => v.cusum_flag)) =
        some (Detection.specFlags ops (ws ++ if w = [] then [] else [w]) ops.zero) := by
    intro D ops csv rank size total_flows ws w hws hw hs
    have h := (Detection.runFile_windows ops csv rank size ws w hws hw hs).2
    simp only [Detection.process_csv, Bool.true_eq_false, if_false, Option.map_some', h]
  have hlen : Detection.windowA.length = Detection.WINDOW_SIZE := by
    simp only [Detection.windowA, List.length_append, List.length_cons, List.length_nil,
      List.length_replicate]
    rfl
  refine ⟨fun D ops csv rank size total_flows ws w _ hws hw hs =>
    hgen D ops csv rank size total_flows ws w hws hw hs,
    hlen, Detection.samples_fileA, Detection.samples_fileB,
    Detection.specMean_examples.1, Detection.specMean_examples.2, ?_, ?_⟩
  · have h := hgen Dbl ieeeOps Detection.fileA 0 1 0 [Detection.windowA] [95, 105]
      (by intro x hx; rw [List.mem_singleton.mp hx]; exact hlen)
      (by decide)
      (by rw [Detection.samples_fileA]; simp only [List.flatten_cons, List.flatten_nil,
        List.append_nil])
    rw [h]
    exact congrArg some Detection.specFlags_examples.1
  · have h := hgen Dbl ieeeOps Detection.fileB 0 1 0 [] [95, 105]
      (by intro x hx; exact absurd hx (List.not_mem_nil x)) (by decide)
      (by rw [Detection.samples_fileB]; rfl)
    rw [h]
    exact congrArg some Detection.specFlags_examples.2

/-- Witness of C10 on `fileA`, one worker, in the double arithmetic of C: the
full window `windowA` and the rest 95, 105, whose flag depends on the sum
`-80` carried out of `windowA`; the flags written are 1 and 1. -/
theorem cusum_state_carried_across_windows_witness :
    (0 : Int) < 1 ∧
    (∀ x ∈ [Detection.windowA], x.length = Detection.WINDOW_SIZE) ∧
    ([95, 105] : List Int).length < Detection.WINDOW_SIZE ∧
    Detection.samples 0 1 Detection.fileA = [Detection.windowA].flatten ++ [95, 105] ∧
    (Detection.process_csv ieeeOps (some Detection.fileA) true 0 1 0).1.map
        (List.map (fun v => v.cusum_flag)) =
      some (Detection.specFlags ieeeOps
        ([Detection.windowA] ++ if ([95, 105] : List Int) = [] then [] else [[95, 105]])
        ieeeOps.zero) ∧
    Detection.specFlags ieeeOps [Detection.windowA, [95, 105]] ieeeOps.zero = [1, 1] :=
  have hlen : ∀ x ∈ [Detection.windowA], x.length = Detection.WINDOW_SIZE := by
    intro x hx
    rw [List.mem_singleton.mp hx]
    simp only [Detection.windowA, List.length_append, List.length_cons, List.length_nil,
      List.length_replicate]
    rfl
  have hs : Detection.samples 0 1 Detection.fileA = [Detection.windowA].flatten ++ [95, 105] := by
    rw [Detection.samples_fileA]
    simp only [List.flatten_cons, List.flatten_nil, List.append_nil]
  ⟨by decide, hlen, by decide, hs,
    cusum_state_carried_across_windows.1 Dbl ieeeOps Detection.fileA 0 1 0
      [Detection.windowA] [95, 105] (by decide) hlen (by decide) hs,
    Detection.specFlags_examples.1⟩

end MpiDdos
